import Mathlib

/-!
Verification of the Mosaic-Master brush effect engine (`src/utils/effects.ts`).

The engine mutates a raster of interleaved 8-bit RGBA bytes.  We embed the
byte buffer as a total map `ℤ → ℕ` (all accesses of the source are proved to
be in range separately), canvas coordinates as exact rationals (JS numbers),
and each of the two pixel-level effects, `applyPixelate` and `applyNoise`,
as a pure function from the input buffer to the output buffer.  The
`readOk` flag models whether `ctx.getImageData` succeeds or throws (a
security error on a tainted canvas); `rand : ℕ → ℚ` is the stream of
`Math.random()` draws, consumed in call order.

Lean's `/` and `%` on ℤ are Euclidean division and remainder; for a positive
divisor these agree with JS `Math.floor(a / b)` and the mathematical
remainder, which is what every division in the source demands.
-/

unseal Rat.add Rat.mul Rat.sub Rat.inv Rat.ofScientific

/-- A byte buffer: row-major interleaved RGBA, one ℕ per byte. -/
def Buf : Type := ℤ → ℕ

/-- One brush dab: the canvas dimensions (`ctx.canvas.width/height`), the brush
center passed to the effect, and the `BrushSettings` fields. -/
structure Dab where
  width : ℤ
  height : ℤ
  centerX : ℚ
  centerY : ℚ
  radius : ℚ
  intensity : ℚ

/-- Byte index of channel `c` of the pixel in column `x`, row `y` of a
row-major RGBA array of row width `w`: the source expression
`(y * w + x) * 4 + c`. -/
def byteIdx (w x y c : ℤ) : ℤ := (y * w + x) * 4 + c

/-- The source test `Math.sqrt((x - centerX) ** 2 + (y - centerY) ** 2) <= radius`,
evaluated exactly: over the reals, `√q ≤ r` holds iff `0 ≤ r ∧ q ≤ r ^ 2`
(proved in the theorem for claim C10). -/
def inCircle (cx cy r : ℚ) (x y : ℤ) : Bool :=
  decide ((0:ℚ) ≤ r) && decide (((x:ℚ) - cx) ^ 2 + ((y:ℚ) - cy) ^ 2 ≤ r ^ 2)

/-- `ctx.getImageData(sx, sy, sw, sh)`: copies the rectangle with origin
`(sx, sy)` and width `sw` out of a canvas of row width `w` into a fresh local
byte array; local byte `i` is channel `i % 4` of local pixel
`(i / 4 % sw, i / 4 / sw)`. -/
def getImageData (w : ℤ) (buf : Buf) (sx sy sw : ℤ) : Buf :=
  fun i => buf (byteIdx w (sx + i / 4 % sw) (sy + i / 4 / sw) (i % 4))

/-- `ctx.putImageData(img, sx, sy)` for an `sw × sh` image: bytes whose pixel
falls inside the written rectangle come from the image, all others keep the
canvas value. -/
def putImageData (w : ℤ) (buf : Buf) (sx sy sw sh : ℤ) (img : Buf) : Buf :=
  fun i =>
    if sx ≤ i / 4 % w ∧ i / 4 % w < sx + sw ∧ sy ≤ i / 4 / w ∧ i / 4 / w < sy + sh then
      img (byteIdx sw (i / 4 % w - sx) (i / 4 / w - sy) (i % 4))
    else buf i

/-- The integers visited by `for (v = lo; v < hi; v++)`. -/
def rangeZ (lo hi : ℤ) : List ℤ :=
  (List.range (hi - lo).toNat).map (fun (i : ℕ) => lo + (i : ℤ))

/-- The integers visited by `for (v = lo; v < hi; v += step)`, for positive step. -/
def stepped (lo hi step : ℤ) : List ℤ :=
  (List.range ((hi - lo + step - 1) / step).toNat).map (fun (i : ℕ) => lo + (i : ℤ) * step)

namespace Pixelate

/-- `blockSize = Math.max(2, Math.floor(intensity))`. -/
def blockSize (d : Dab) : ℤ := max 2 ⌊d.intensity⌋

/-- `brushMinX = Math.floor(centerX - radius)`. -/
def brushMinX (d : Dab) : ℤ := ⌊d.centerX - d.radius⌋

/-- `brushMinY = Math.floor(centerY - radius)`. -/
def brushMinY (d : Dab) : ℤ := ⌊d.centerY - d.radius⌋

/-- `brushMaxX = Math.ceil(centerX + radius)`. -/
def brushMaxX (d : Dab) : ℤ := ⌈d.centerX + d.radius⌉

/-- `brushMaxY = Math.ceil(centerY + radius)`. -/
def brushMaxY (d : Dab) : ℤ := ⌈d.centerY + d.radius⌉

/-- `startX = Math.floor(brushMinX / blockSize) * blockSize` (ℤ Euclidean
division is floor division for the positive divisor `blockSize`). -/
def startX (d : Dab) : ℤ := brushMinX d / blockSize d * blockSize d

/-- `startY = Math.floor(brushMinY / blockSize) * blockSize`. -/
def startY (d : Dab) : ℤ := brushMinY d / blockSize d * blockSize d

/-- `endX = Math.floor((brushMaxX + blockSize - 1) / blockSize) * blockSize`. -/
def endX (d : Dab) : ℤ := (brushMaxX d + blockSize d - 1) / blockSize d * blockSize d

/-- `endY = Math.floor((brushMaxY + blockSize - 1) / blockSize) * blockSize`. -/
def endY (d : Dab) : ℤ := (brushMaxY d + blockSize d - 1) / blockSize d * blockSize d

/-- `safeStartX = Math.max(0, startX)`. -/
def safeStartX (d : Dab) : ℤ := max 0 (startX d)

/-- `safeStartY = Math.max(0, startY)`. -/
def safeStartY (d : Dab) : ℤ := max 0 (startY d)

/-- `safeEndX = Math.min(canvasWidth, endX)`. -/
def safeEndX (d : Dab) : ℤ := min d.width (endX d)

/-- `safeEndY = Math.min(canvasHeight, endY)`. -/
def safeEndY (d : Dab) : ℤ := min d.height (endY d)

/-- `safeWidth = safeEndX - safeStartX`. -/
def safeWidth (d : Dab) : ℤ := safeEndX d - safeStartX d

/-- `safeHeight = safeEndY - safeStartY`. -/
def safeHeight (d : Dab) : ℤ := safeEndY d - safeStartY d

/-- `gridStartX = Math.floor(safeStartX / blockSize) * blockSize`. -/
def gridStartX (d : Dab) : ℤ := safeStartX d / blockSize d * blockSize d

/-- `gridStartY = Math.floor(safeStartY / blockSize) * blockSize`. -/
def gridStartY (d : Dab) : ℤ := safeStartY d / blockSize d * blockSize d

/-- `blockMinX = Math.max(safeStartX, gx)`. -/
def blockMinX (d : Dab) (gx : ℤ) : ℤ := max (safeStartX d) gx

/-- `blockMaxX = Math.min(safeEndX, gx + blockSize)`. -/
def blockMaxX (d : Dab) (gx : ℤ) : ℤ := min (safeEndX d) (gx + blockSize d)

/-- `blockMinY = Math.max(safeStartY, gy)`. -/
def blockMinY (d : Dab) (gy : ℤ) : ℤ := max (safeStartY d) gy

/-- `blockMaxY = Math.min(safeEndY, gy + blockSize)`. -/
def blockMaxY (d : Dab) (gy : ℤ) : ℤ := min (safeEndY d) (gy + blockSize d)

/-- The global pixel coordinates of the visible part of the block at
`(gx, gy)`, in the iteration order of the two nested loops (rows outer,
columns inner). -/
def blockPixels (d : Dab) (gx gy : ℤ) : List (ℤ × ℤ) :=
  (rangeZ (blockMinY d gy) (blockMaxY d gy)).flatMap
    (fun y => (rangeZ (blockMinX d gx) (blockMaxX d gx)).map (fun x => (x, y)))

/-- Accumulated sum of one channel over the visible part of the block, read
from the local ImageData array exactly as the averaging loop does
(`localX = x - safeStartX`, `localY = y - safeStartY`). -/
def blockSum (d : Dab) (data : Buf) (gx gy c : ℤ) : ℕ :=
  ((blockPixels d gx gy).map (fun q =>
    data (byteIdx (safeWidth d) (q.1 - safeStartX d) (q.2 - safeStartY d) c))).sum

/-- The `count` accumulated by the averaging loop: one per visited pixel. -/
def blockCount (d : Dab) (gx gy : ℤ) : ℕ := (blockPixels d gx gy).length

/-- `Math.floor(r / count)`: ℕ division is floor division. -/
def blockAvg (d : Dab) (data : Buf) (gx gy c : ℤ) : ℕ :=
  blockSum d data gx gy c / blockCount d gx gy

/-- The three consecutive stores `data[idx] = r; data[idx+1] = g; data[idx+2] = b`. -/
def writeRGB (data : Buf) (idx : ℤ) (r g b : ℕ) : Buf :=
  fun j => if j = idx then r else if j = idx + 1 then g else if j = idx + 2 then b else data j

/-- The paint loop of one block: every visible pixel of the block whose
coordinates pass the circle test receives the block average. -/
def paintBlock (d : Dab) (gx gy : ℤ) (r g b : ℕ) (data : Buf) : Buf :=
  (blockPixels d gx gy).foldl
    (fun dat q =>
      if inCircle d.centerX d.centerY d.radius q.1 q.2 then
        writeRGB dat (byteIdx (safeWidth d) (q.1 - safeStartX d) (q.2 - safeStartY d) 0) r g b
      else dat)
    data

/-- One iteration of the grid loop: compute the block average from the current
data, then paint it onto the in-circle pixels of the block.  The two `continue`
guards of the source are kept. -/
def processBlock (d : Dab) (data : Buf) (g : ℤ × ℤ) : Buf :=
  if blockMaxX d g.1 ≤ blockMinX d g.1 ∨ blockMaxY d g.2 ≤ blockMinY d g.2 then data
  else if blockCount d g.1 g.2 = 0 then data
  else
    paintBlock d g.1 g.2 (blockAvg d data g.1 g.2 0) (blockAvg d data g.1 g.2 1)
      (blockAvg d data g.1 g.2 2) data

/-- The blocks visited by the two grid loops (`gy` outer, `gx` inner). -/
def blockList (d : Dab) : List (ℤ × ℤ) :=
  (stepped (gridStartY d) (safeEndY d) (blockSize d)).flatMap
    (fun gy => (stepped (gridStartX d) (safeEndX d) (blockSize d)).map (fun gx => (gx, gy)))

end Pixelate

open Pixelate in
/-- The whole of `applyPixelate`: geometry, the degenerate-region early return,
the guarded `getImageData`, the grid fold, and the final `putImageData`. -/
def applyPixelate (d : Dab) (readOk : Bool) (buf : Buf) : Buf :=
  if safeWidth d ≤ 0 ∨ safeHeight d ≤ 0 then buf
  else if readOk then
    putImageData d.width buf (safeStartX d) (safeStartY d) (safeWidth d) (safeHeight d)
      ((blockList d).foldl (processBlock d)
        (getImageData d.width buf (safeStartX d) (safeStartY d) (safeWidth d)))
  else buf

namespace Noise

/-- `diameter = radius * 2`. -/
def diameter (d : Dab) : ℚ := d.radius * 2

/-- `startX = Math.floor(x - radius)`. -/
def startX (d : Dab) : ℤ := ⌊d.centerX - d.radius⌋

/-- `startY = Math.floor(y - radius)`. -/
def startY (d : Dab) : ℤ := ⌊d.centerY - d.radius⌋

/-- `variance = intensity * 1.5`. -/
def variance (d : Dab) : ℚ := d.intensity * (3 / 2)

/-- `safeX = Math.max(0, startX)`. -/
def safeX (d : Dab) : ℤ := max 0 (startX d)

/-- `safeY = Math.max(0, startY)`. -/
def safeY (d : Dab) : ℤ := max 0 (startY d)

/-- `safeW = Math.min(ctx.canvas.width - safeX, diameter)` — an exact number;
the source compares this exact value against 0. -/
def safeW (d : Dab) : ℚ := min ((d.width : ℚ) - (safeX d : ℚ)) (diameter d)

/-- `safeH = Math.min(ctx.canvas.height - safeY, diameter)`. -/
def safeH (d : Dab) : ℚ := min ((d.height : ℚ) - (safeY d : ℚ)) (diameter d)

/-- The width actually fetched: `getImageData` coerces its width argument to an
integer (WebIDL truncation, equal to floor here because the source has already
checked `safeW > 0`); the returned `imgData.width` used by the loops is this
integer. -/
def imgW (d : Dab) : ℤ := ⌊safeW d⌋

/-- The height actually fetched, as `imgW`. -/
def imgH (d : Dab) : ℤ := ⌊safeH d⌋

/-- Storing a JS number into a `Uint8ClampedArray` entry: clamp to `[0, 255]`
and round to the nearest integer, ties to even.  The source additionally
applies `Math.min(255, Math.max(0, v))` before the store, which is the inner
clamp here. -/
def clampByte (q : ℚ) : ℕ :=
  (if q - ⌊q⌋ < 1 / 2 then ⌊q⌋
   else if 1 / 2 < q - ⌊q⌋ then ⌊q⌋ + 1
   else if 2 ∣ ⌊q⌋ then ⌊q⌋ else ⌊q⌋ + 1).toNat

/-- The value stored by `data[pos] = Math.min(255, Math.max(0, data[pos] + rand))`. -/
def storeByte (old : ℕ) (delta : ℚ) : ℕ := clampByte (min 255 (max 0 ((old : ℚ) + delta)))

/-- One iteration of the noise loops at local pixel `q = (lx, ly)`: the state
is the local byte array plus the number of `Math.random()` draws consumed so
far.  An in-circle pixel draws three values (R, G, B order) and stores the
three perturbed channels; any other pixel is skipped.  The source's local
`pos = (ly * width + lx) * 4` is written out as `byteIdx (imgW d) lx ly 0`. -/
def noiseStep (d : Dab) (rand : ℕ → ℚ) (st : Buf × ℕ) (q : ℤ × ℤ) : Buf × ℕ :=
  if inCircle d.centerX d.centerY d.radius (safeX d + q.1) (safeY d + q.2) then
    (fun j =>
      if j = byteIdx (imgW d) q.1 q.2 0 then
        storeByte (st.1 (byteIdx (imgW d) q.1 q.2 0)) ((rand st.2 - 1 / 2) * variance d)
      else if j = byteIdx (imgW d) q.1 q.2 0 + 1 then
        storeByte (st.1 (byteIdx (imgW d) q.1 q.2 0 + 1)) ((rand (st.2 + 1) - 1 / 2) * variance d)
      else if j = byteIdx (imgW d) q.1 q.2 0 + 2 then
        storeByte (st.1 (byteIdx (imgW d) q.1 q.2 0 + 2)) ((rand (st.2 + 2) - 1 / 2) * variance d)
      else st.1 j,
     st.2 + 3)
  else st

/-- The local pixels visited by the noise loops (`ly` outer, `lx` inner). -/
def noisePixels (d : Dab) : List (ℤ × ℤ) :=
  (rangeZ 0 (imgH d)).flatMap (fun ly => (rangeZ 0 (imgW d)).map (fun lx => (lx, ly)))

end Noise

open Noise in
/-- The whole of `applyNoise`: the degenerate-size early return, the throwing
`getImageData` (zero coerced size raises `IndexSizeError`, caught by the
source's `try`, as is the tainted-canvas failure modelled by `readOk`), the
pixel fold threading the random stream, and the final `putImageData`. -/
def applyNoise (d : Dab) (readOk : Bool) (rand : ℕ → ℚ) (buf : Buf) : Buf :=
  if safeW d ≤ 0 ∨ safeH d ≤ 0 then buf
  else if imgW d = 0 ∨ imgH d = 0 then buf
  else if readOk then
    putImageData d.width buf (safeX d) (safeY d) (imgW d) (imgH d)
      (((noisePixels d).foldl (noiseStep d rand) (getImageData d.width buf (safeX d) (safeY d) (imgW d), 0)).1)
  else buf

namespace Blur

/-- `blurPx = Math.max(1, intensity / 4)`. -/
def blurPx (d : Dab) : ℚ := max 1 (d.intensity / 4)

end Blur

open Blur in
/-- Modelled from the spec: the pixel-level output of `applyBlur` is produced
by the canvas engine (`ctx.filter = 'blur(...)'` plus `drawImage` under a
circular clip), which is not part of this repository's sources; only the clip
circle, the padded source/destination rectangle and the filter strength are
computed in `src/utils/effects.ts`.  Following §4.4 of the spec, drawing is
restricted to pixels inside the clip circle and inside the padded rectangle
(origin `max(0, center - radius - blurPx * 2)` per axis, side
`(radius + blurPx * 2) * 2`), replacing their colour by the blurred rendering
`blurred`, and by the §3 data-model invariant the alpha channel is never
modified by any effect of this core. -/
def applyBlur (d : Dab) (blurred : Buf) (surface : Buf) : Buf :=
  fun i =>
    let x := i / 4 % d.width
    let y := i / 4 / d.width
    if inCircle d.centerX d.centerY d.radius x y
        ∧ max 0 (d.centerX - d.radius - blurPx d * 2) ≤ (x : ℚ)
        ∧ (x : ℚ) < max 0 (d.centerX - d.radius - blurPx d * 2) + (d.radius + blurPx d * 2) * 2
        ∧ max 0 (d.centerY - d.radius - blurPx d * 2) ≤ (y : ℚ)
        ∧ (y : ℚ) < max 0 (d.centerY - d.radius - blurPx d * 2) + (d.radius + blurPx d * 2) * 2
        ∧ i % 4 ≠ 3 then
      blurred i
    else surface i

namespace SpecRegion

/-- Definition following the words of claim C3 (for comparison with the code's
region): `boundingBox(center, radius)` spans `floor(center - radius)` to
`ceil(center + radius)` per axis, and `visible` is its clip to
`[0, width) × [0, height)`.  This is the claimed region, not the one the
source computes. -/
def visibleMinX (d : Dab) : ℤ := max 0 ⌊d.centerX - d.radius⌋

/-- Claimed clipped upper x bound (exclusive): `min width (ceil(centerX + radius))`. -/
def visibleMaxX (d : Dab) : ℤ := min d.width ⌈d.centerX + d.radius⌉

/-- Claimed clipped lower y bound. -/
def visibleMinY (d : Dab) : ℤ := max 0 ⌊d.centerY - d.radius⌋

/-- Claimed clipped upper y bound (exclusive). -/
def visibleMaxY (d : Dab) : ℤ := min d.height ⌈d.centerY + d.radius⌉

/-- Membership of a pixel in the claimed visible region. -/
def memVisible (d : Dab) (x y : ℤ) : Prop :=
  visibleMinX d ≤ x ∧ x < visibleMaxX d ∧ visibleMinY d ≤ y ∧ y < visibleMaxY d

instance (d : Dab) (x y : ℤ) : Decidable (memVisible d x y) := by
  unfold memVisible; infer_instance

end SpecRegion

namespace Pixelate

/-- The anchor of the grid cell containing column `x`: the greatest multiple of
`blockSize` that is `≤ x`.  Used to state which block the grid loop assigns to
each pixel. -/
def cellX (d : Dab) (x : ℤ) : ℤ := x / blockSize d * blockSize d

/-- The anchor of the grid cell containing row `y`. -/
def cellY (d : Dab) (y : ℤ) : ℤ := y / blockSize d * blockSize d

/-- Which of the three averaged values the paint loop stores into channel `c`. -/
def rgbSel (r g b : ℕ) (c : ℤ) : ℕ := if c = 0 then r else if c = 1 then g else b

/-- The channel sum of the visible part of a block, read from the canvas buffer
in global coordinates (used to state theorems; equal to `blockSum` over the
fetched sub-region). -/
def cellVisibleSum (d : Dab) (buf : Buf) (gx gy c : ℤ) : ℕ :=
  ((blockPixels d gx gy).map (fun q => buf (byteIdx d.width q.1 q.2 c))).sum

/-- The floor mean of one channel over the visible part of a block of the
canvas buffer. -/
def cellVisibleAvg (d : Dab) (buf : Buf) (gx gy c : ℤ) : ℕ :=
  cellVisibleSum d buf gx gy c / blockCount d gx gy

/-- Every index into the local ImageData byte array that the two passes of the
block loop read or write, in order: the averaging pass reads three bytes of
every visible pixel of every block, and the paint pass writes three bytes of
every in-circle pixel. -/
def pixelateAccesses (d : Dab) : List ℤ :=
  (blockList d).flatMap (fun g =>
    (blockPixels d g.1 g.2).flatMap (fun q =>
      [byteIdx (safeWidth d) (q.1 - safeStartX d) (q.2 - safeStartY d) 0,
       byteIdx (safeWidth d) (q.1 - safeStartX d) (q.2 - safeStartY d) 0 + 1,
       byteIdx (safeWidth d) (q.1 - safeStartX d) (q.2 - safeStartY d) 0 + 2] ++
      (if inCircle d.centerX d.centerY d.radius q.1 q.2 then
        [byteIdx (safeWidth d) (q.1 - safeStartX d) (q.2 - safeStartY d) 0,
         byteIdx (safeWidth d) (q.1 - safeStartX d) (q.2 - safeStartY d) 0 + 1,
         byteIdx (safeWidth d) (q.1 - safeStartX d) (q.2 - safeStartY d) 0 + 2]
       else [])))

end Pixelate

namespace Noise

/-- The local pixels the noise loops visit strictly before `(lx, ly)`:
all full rows above it, then the left part of its own row. -/
def noiseBefore (d : Dab) (lx ly : ℤ) : List (ℤ × ℤ) :=
  (rangeZ 0 ly).flatMap (fun y => (rangeZ 0 (imgW d)).map (fun x => (x, y))) ++
    (rangeZ 0 lx).map (fun x => (x, ly))

/-- The local pixels the noise loops visit strictly after `(lx, ly)`. -/
def noiseAfter (d : Dab) (lx ly : ℤ) : List (ℤ × ℤ) :=
  (rangeZ (lx + 1) (imgW d)).map (fun x => (x, ly)) ++
    (rangeZ (ly + 1) (imgH d)).flatMap (fun y => (rangeZ 0 (imgW d)).map (fun x => (x, y)))

/-- How many `Math.random()` draws have been consumed when the loop reaches the
local pixel `(lx, ly)`: three per earlier in-circle pixel. -/
def drawBase (d : Dab) (lx ly : ℤ) : ℕ :=
  3 * ((noiseBefore d lx ly).countP
    (fun q => inCircle d.centerX d.centerY d.radius (safeX d + q.1) (safeY d + q.2)))

/-- Every index into the local ImageData byte array that the noise loop reads
or writes: three bytes of every in-circle pixel. -/
def noiseAccesses (d : Dab) : List ℤ :=
  (noisePixels d).flatMap (fun q =>
    if inCircle d.centerX d.centerY d.radius (safeX d + q.1) (safeY d + q.2) then
      [byteIdx (imgW d) q.1 q.2 0, byteIdx (imgW d) q.1 q.2 0 + 1, byteIdx (imgW d) q.1 q.2 0 + 2]
    else [])

end Noise

/-! Concrete data for witnesses and counterexamples. -/

/-- The 4×4 scenario of claim C1: brush center `(2, 2)`, radius `10`,
`intensity 4` so `blockSize = 4`. -/
def dabQuad : Dab := ⟨4, 4, 2, 2, 10, 4⟩

/-- A 4×4 buffer of four flat-coloured 2×2 quadrants
(`(8,16,32)`, `(60,70,80)`, `(120,130,140)`, `(201,211,221)`), alpha 255. -/
def bufQuad : Buf := fun i =>
  if i % 4 = 3 then 255
  else
    if i / 4 / 4 < 2 then
      if i / 4 % 4 < 2 then Pixelate.rgbSel 8 16 32 (i % 4) else Pixelate.rgbSel 60 70 80 (i % 4)
    else
      if i / 4 % 4 < 2 then Pixelate.rgbSel 120 130 140 (i % 4) else Pixelate.rgbSel 201 211 221 (i % 4)

/-- The per-channel floor average of the four quadrant colours of `bufQuad`. -/
def quadAvg (c : ℤ) : ℕ := Pixelate.rgbSel 97 106 118 c

/-- An 8×8 canvas dab with brush center `(2, 2)`, radius `5`, intensity `10`,
whose noise region exposes the divergence of claim C3. -/
def dabEdge : Dab := ⟨8, 8, 2, 2, 5, 10⟩

/-- A flat buffer: every colour byte 100, every alpha byte 255. -/
def bufFlat : Buf := fun i => if i % 4 = 3 then 255 else 100

/-- The all-zero random stream (an admissible `Math.random()` history). -/
def randZero : ℕ → ℚ := fun _ => 0

/-- The 100×100 canvas dab of claim C5's concrete scenario: brush center
`(-5, -5)`, radius `8`. -/
def dabFar : Dab := ⟨100, 100, -5, -5, 8, 10⟩

/-- A degenerate dab: radius `0` at an integer position, producing zero-area
regions for both effects. -/
def dabZero : Dab := ⟨10, 10, 0, 0, 0, 4⟩

/-- First dab of claim C2's witness: `blockSize = 4`, center `(3, 3)`. -/
def dabA : Dab := ⟨20, 20, 3, 3, 4, 4⟩

/-- Second dab of claim C2's witness: same `blockSize`, center `(6, 5)`. -/
def dabB : Dab := ⟨20, 20, 6, 5, 4, 4⟩

/-- A dab with fractional radius `7/10` at integer center: the pixel at the
center is inside the circle under the source's integer-coordinate test, while
the geometric pixel center `(0.5, 0.5)` would not be. -/
def dabTiny : Dab := ⟨2, 2, 0, 0, 7 / 10, 10⟩

/-! Arithmetic helpers. -/

theorem ediv_mul_le_self {a b : ℤ} (hb : 0 < b) : b * (a / b) ≤ a := by
  have h := Int.ediv_add_emod a b
  have h2 := Int.emod_nonneg a hb.ne'
  omega

theorem lt_ediv_mul_add {a b : ℤ} (hb : 0 < b) : a < b * (a / b) + b := by
  have h := Int.ediv_add_emod a b
  have h2 := Int.emod_lt_of_pos a hb
  omega

theorem ediv_eq_of_between {a b m : ℤ} (hb : 0 < b) (h1 : b * m ≤ a) (h2 : a < b * m + b) :
    a / b = m := by
  have ha : a = (a - b * m) + b * m := by ring
  rw [ha, Int.add_mul_ediv_left _ m hb.ne', Int.ediv_eq_zero_of_lt (by omega) (by omega)]
  ring

theorem emod_four_bounds (i : ℤ) : 0 ≤ i % 4 ∧ i % 4 < 4 :=
  ⟨Int.emod_nonneg i (by omega), Int.emod_lt_of_pos i (by omega)⟩

theorem byteIdx_emod_four {w x y c : ℤ} (hc : 0 ≤ c) (hc4 : c < 4) : byteIdx w x y c % 4 = c := by
  unfold byteIdx
  have : (y * w + x) * 4 + c = c + 4 * (y * w + x) := by ring
  rw [this, Int.add_mul_emod_self_left, Int.emod_eq_of_lt hc hc4]

theorem byteIdx_ediv_four {w x y c : ℤ} (hc : 0 ≤ c) (hc4 : c < 4) :
    byteIdx w x y c / 4 = y * w + x := by
  unfold byteIdx
  have : (y * w + x) * 4 + c = c + 4 * (y * w + x) := by ring
  rw [this, Int.add_mul_ediv_left _ _ (by omega : (4:ℤ) ≠ 0),
    Int.ediv_eq_zero_of_lt hc hc4]
  ring

theorem row_emod {w x y : ℤ} (hx : 0 ≤ x) (hxw : x < w) : (y * w + x) % w = x := by
  have : y * w + x = x + w * y := by ring
  rw [this, Int.add_mul_emod_self_left, Int.emod_eq_of_lt hx hxw]

theorem row_ediv {w x y : ℤ} (hx : 0 ≤ x) (hxw : x < w) : (y * w + x) / w = y := by
  have hw : w ≠ 0 := by omega
  have : y * w + x = x + w * y := by ring
  rw [this, Int.add_mul_ediv_left _ _ hw, Int.ediv_eq_zero_of_lt hx hxw]
  ring

theorem byteIdx_decode {w x y c : ℤ} (hx : 0 ≤ x) (hxw : x < w) (hc : 0 ≤ c) (hc4 : c < 4) :
    byteIdx w x y c % 4 = c ∧ byteIdx w x y c / 4 % w = x ∧ byteIdx w x y c / 4 / w = y := by
  refine ⟨byteIdx_emod_four hc hc4, ?_, ?_⟩
  · rw [byteIdx_ediv_four hc hc4, row_emod hx hxw]
  · rw [byteIdx_ediv_four hc hc4, row_ediv hx hxw]

theorem byteIdx_inj {w x y c x' y' c' : ℤ} (hx : 0 ≤ x) (hxw : x < w) (hx' : 0 ≤ x')
    (hxw' : x' < w) (hc : 0 ≤ c) (hc4 : c < 4) (hc' : 0 ≤ c') (hc4' : c' < 4)
    (h : byteIdx w x y c = byteIdx w x' y' c') : x = x' ∧ y = y' ∧ c = c' := by
  obtain ⟨e1, e2, e3⟩ := @byteIdx_decode w x y c hx hxw hc hc4
  obtain ⟨f1, f2, f3⟩ := @byteIdx_decode w x' y' c' hx' hxw' hc' hc4'
  rw [h] at e1 e2 e3
  exact ⟨e2.symm.trans f2, e3.symm.trans f3, e1.symm.trans f1⟩

theorem byteIdx_recompose (w i : ℤ) : byteIdx w (i / 4 % w) (i / 4 / w) (i % 4) = i := by
  unfold byteIdx
  have h1 : w * (i / 4 / w) + i / 4 % w = i / 4 := Int.ediv_add_emod _ _
  have h2 : 4 * (i / 4) + i % 4 = i := Int.ediv_add_emod _ _
  have : (i / 4 / w * w + i / 4 % w) * 4 + i % 4 =
      4 * (w * (i / 4 / w) + i / 4 % w) + i % 4 := by ring
  rw [this, h1, h2]

theorem byteIdx_add {w x y : ℤ} (c : ℤ) : byteIdx w x y 0 + c = byteIdx w x y c := by
  unfold byteIdx; ring

theorem byteIdx_bounds {sw sh lx ly c : ℤ} (h1 : 0 ≤ lx) (h2 : lx < sw) (h3 : 0 ≤ ly)
    (h4 : ly < sh) (h5 : 0 ≤ c) (h6 : c < 4) :
    0 ≤ byteIdx sw lx ly c ∧ byteIdx sw lx ly c < 4 * sw * sh := by
  unfold byteIdx
  constructor
  · nlinarith
  · nlinarith [mul_le_mul_of_nonneg_right (by omega : ly + 1 ≤ sh) (by omega : (0:ℤ) ≤ sw)]

/-! Loop range lemmas. -/

theorem mem_rangeZ {lo hi a : ℤ} : a ∈ rangeZ lo hi ↔ lo ≤ a ∧ a < hi := by
  constructor
  · intro h
    obtain ⟨i, hi2, hie⟩ := List.mem_map.mp h
    have hi3 : i < (hi - lo).toNat := List.mem_range.mp hi2
    omega
  · rintro ⟨h1, h2⟩
    exact List.mem_map.mpr ⟨(a - lo).toNat, List.mem_range.mpr (by omega), by omega⟩

theorem rangeZ_nodup (lo hi : ℤ) : (rangeZ lo hi).Nodup := by
  unfold rangeZ
  apply List.Nodup.map
  · intro a b h
    simp only at h
    omega
  · exact List.nodup_range _

theorem rangeZ_nil {lo hi : ℤ} (h : hi ≤ lo) : rangeZ lo hi = [] := by
  unfold rangeZ
  have hz : (hi - lo).toNat = 0 := by omega
  rw [hz]
  rfl

theorem rangeZ_cons {lo hi : ℤ} (h : lo < hi) : rangeZ lo hi = lo :: rangeZ (lo + 1) hi := by
  unfold rangeZ
  have hn : (hi - lo).toNat = (hi - (lo + 1)).toNat + 1 := by omega
  rw [hn, List.range_succ_eq_map, List.map_cons, List.map_map]
  refine congrArg₂ List.cons (by norm_num) (List.map_congr_left ?_)
  intro i _
  simp only [Function.comp_apply]
  push_cast
  ring

theorem rangeZ_append (lo : ℤ) (n : ℕ) (hi : ℤ) (h2 : lo + n ≤ hi) :
    rangeZ lo hi = rangeZ lo (lo + n) ++ rangeZ (lo + n) hi := by
  induction n generalizing lo with
  | zero =>
    rw [show lo + ((0:ℕ):ℤ) = lo by push_cast; ring, rangeZ_nil le_rfl, List.nil_append]
  | succ k ih =>
    have hlo : lo < hi := by push_cast at h2; omega
    have hq : lo < lo + ((k+1:ℕ):ℤ) := by push_cast; omega
    rw [rangeZ_cons hlo, rangeZ_cons hq, List.cons_append]
    refine congrArg₂ List.cons rfl ?_
    have he : lo + ((k+1:ℕ):ℤ) = (lo + 1) + ((k:ℕ):ℤ) := by push_cast; ring
    rw [he]
    exact ih (lo + 1) (by push_cast at h2 ⊢; omega)

theorem rangeZ_split {lo mid hi : ℤ} (h1 : lo ≤ mid) (h2 : mid < hi) :
    rangeZ lo hi = rangeZ lo mid ++ mid :: rangeZ (mid + 1) hi := by
  have ha := rangeZ_append lo (mid - lo).toNat hi (by omega)
  rw [show lo + (((mid - lo).toNat : ℕ):ℤ) = mid by omega] at ha
  rw [ha, rangeZ_cons h2]

theorem mem_stepped {lo hi s g : ℤ} (hs : 0 < s) :
    g ∈ stepped lo hi s ↔ s ∣ (g - lo) ∧ lo ≤ g ∧ g < hi := by
  unfold stepped
  constructor
  · intro h
    obtain ⟨k, hk2, hke⟩ := List.mem_map.mp h
    have hk3 : k < ((hi - lo + s - 1) / s).toNat := List.mem_range.mp hk2
    have hkz : (k : ℤ) < (hi - lo + s - 1) / s := by
      rcases le_or_lt ((hi - lo + s - 1) / s) 0 with hle | hpos
      · omega
      · omega
    have hds : (hi - lo + s - 1) / s * s ≤ hi - lo + s - 1 := Int.ediv_mul_le _ hs.ne'
    have hks : (k : ℤ) * s ≤ ((hi - lo + s - 1) / s - 1) * s :=
      mul_le_mul_of_nonneg_right (by omega) hs.le
    have hk0 : (0:ℤ) ≤ (k:ℤ) * s := mul_nonneg (Int.natCast_nonneg k) hs.le
    refine ⟨by rw [← hke]; exact ⟨k, by ring⟩, by omega, by nlinarith⟩
  · rintro ⟨⟨m, hm⟩, h1, h2⟩
    have hm0 : 0 ≤ m := by nlinarith
    have hD : hi - lo ≤ (hi - lo + s - 1) / s * s := by
      have e1 := Int.ediv_add_emod (hi - lo + s - 1) s
      have e2 := Int.emod_lt_of_pos (hi - lo + s - 1) hs
      nlinarith
    have hmlt : m < (hi - lo + s - 1) / s := by nlinarith
    refine List.mem_map.mpr ⟨m.toNat, List.mem_range.mpr ?_, ?_⟩
    · rw [Int.toNat_lt hm0, Int.toNat_of_nonneg (by omega : (0:ℤ) ≤ (hi - lo + s - 1) / s)]
      exact hmlt
    · rw [Int.toNat_of_nonneg hm0]
      linarith [hm, mul_comm m s]

theorem stepped_nodup {lo hi s : ℤ} (hs : 0 < s) : (stepped lo hi s).Nodup := by
  unfold stepped
  apply List.Nodup.map
  · intro a b h
    simp only at h
    have h2 : (a:ℤ) * s = (b:ℤ) * s := by linarith
    have h3 : (a:ℤ) = (b:ℤ) := mul_right_cancel₀ hs.ne' h2
    exact_mod_cast h3
  · exact List.nodup_range _

/-! Pixelate geometry lemmas. -/

namespace Pixelate

theorem blockSize_pos (d : Dab) : 0 < blockSize d :=
  lt_of_lt_of_le (by omega) (le_max_left 2 ⌊d.intensity⌋)

theorem safeStartX_nonneg (d : Dab) : 0 ≤ safeStartX d := le_max_left 0 _

theorem safeStartY_nonneg (d : Dab) : 0 ≤ safeStartY d := le_max_left 0 _

theorem safeEndX_le_width (d : Dab) : safeEndX d ≤ d.width := min_le_left _ _

theorem safeEndY_le_height (d : Dab) : safeEndY d ≤ d.height := min_le_left _ _

theorem cellX_le (d : Dab) (x : ℤ) : cellX d x ≤ x := by
  unfold cellX
  rw [mul_comm]
  exact ediv_mul_le_self (blockSize_pos d)

theorem lt_cellX_add (d : Dab) (x : ℤ) : x < cellX d x + blockSize d := by
  unfold cellX
  rw [mul_comm]
  exact lt_ediv_mul_add (blockSize_pos d)

theorem cellY_le (d : Dab) (y : ℤ) : cellY d y ≤ y := by
  unfold cellY
  rw [mul_comm]
  exact ediv_mul_le_self (blockSize_pos d)

theorem lt_cellY_add (d : Dab) (y : ℤ) : y < cellY d y + blockSize d := by
  unfold cellY
  rw [mul_comm]
  exact lt_ediv_mul_add (blockSize_pos d)

theorem dvd_cellX (d : Dab) (x : ℤ) : blockSize d ∣ cellX d x := Dvd.intro_left _ rfl

theorem dvd_cellY (d : Dab) (y : ℤ) : blockSize d ∣ cellY d y := Dvd.intro_left _ rfl

theorem cellX_eq_of_aligned {d : Dab} {g x : ℤ} (hdvd : blockSize d ∣ g) (h1 : g ≤ x)
    (h2 : x < g + blockSize d) : cellX d x = g := by
  obtain ⟨m, hm⟩ := hdvd
  subst hm
  unfold cellX
  rw [ediv_eq_of_between (blockSize_pos d) h1 h2]
  ring

theorem cellY_eq_of_aligned {d : Dab} {g y : ℤ} (hdvd : blockSize d ∣ g) (h1 : g ≤ y)
    (h2 : y < g + blockSize d) : cellY d y = g := by
  obtain ⟨m, hm⟩ := hdvd
  subst hm
  unfold cellY
  rw [ediv_eq_of_between (blockSize_pos d) h1 h2]
  ring

theorem dvd_gridStartX (d : Dab) : blockSize d ∣ gridStartX d := Dvd.intro_left _ rfl

theorem dvd_gridStartY (d : Dab) : blockSize d ∣ gridStartY d := Dvd.intro_left _ rfl

theorem gridStartX_le (d : Dab) {x : ℤ} (h : safeStartX d ≤ x) : gridStartX d ≤ cellX d x := by
  unfold gridStartX cellX
  exact mul_le_mul_of_nonneg_right (Int.ediv_le_ediv (blockSize_pos d) h) (blockSize_pos d).le

theorem gridStartY_le (d : Dab) {y : ℤ} (h : safeStartY d ≤ y) : gridStartY d ≤ cellY d y := by
  unfold gridStartY cellY
  exact mul_le_mul_of_nonneg_right (Int.ediv_le_ediv (blockSize_pos d) h) (blockSize_pos d).le

theorem mem_blockPixels {d : Dab} {gx gy : ℤ} {q : ℤ × ℤ} :
    q ∈ blockPixels d gx gy ↔
      blockMinX d gx ≤ q.1 ∧ q.1 < blockMaxX d gx ∧ blockMinY d gy ≤ q.2 ∧ q.2 < blockMaxY d gy := by
  unfold blockPixels
  rw [List.mem_flatMap]
  constructor
  · rintro ⟨y, hy, hq⟩
    obtain ⟨x, hx, hxe⟩ := List.mem_map.mp hq
    rw [mem_rangeZ] at hy hx
    rw [← hxe]
    exact ⟨hx.1, hx.2, hy.1, hy.2⟩
  · rintro ⟨h1, h2, h3, h4⟩
    exact ⟨q.2, mem_rangeZ.mpr ⟨h3, h4⟩,
      List.mem_map.mpr ⟨q.1, mem_rangeZ.mpr ⟨h1, h2⟩, rfl⟩⟩

theorem blockPixels_nodup (d : Dab) (gx gy : ℤ) : (blockPixels d gx gy).Nodup := by
  unfold blockPixels
  rw [List.nodup_flatMap]
  constructor
  · intro y _
    exact (rangeZ_nodup _ _).map (fun a b h => congrArg Prod.fst h)
  · refine (rangeZ_nodup _ _).imp ?_
    intro a b hab
    intro p hpa hpb
    obtain ⟨xa, _, hxa⟩ := List.mem_map.mp hpa
    obtain ⟨xb, _, hxb⟩ := List.mem_map.mp hpb
    apply hab
    have h1 : p.2 = a := by rw [← hxa]
    have h2 : p.2 = b := by rw [← hxb]
    omega

theorem mem_blockList {d : Dab} {g : ℤ × ℤ} :
    g ∈ blockList d ↔
      (blockSize d ∣ g.1 - gridStartX d ∧ gridStartX d ≤ g.1 ∧ g.1 < safeEndX d) ∧
      (blockSize d ∣ g.2 - gridStartY d ∧ gridStartY d ≤ g.2 ∧ g.2 < safeEndY d) := by
  unfold blockList
  rw [List.mem_flatMap]
  constructor
  · rintro ⟨gy, hgy, hg⟩
    obtain ⟨gx, hgx, hge⟩ := List.mem_map.mp hg
    rw [mem_stepped (blockSize_pos d)] at hgy hgx
    rw [← hge]
    exact ⟨hgx, hgy⟩
  · rintro ⟨hx, hy⟩
    exact ⟨g.2, (mem_stepped (blockSize_pos d)).mpr hy,
      List.mem_map.mpr ⟨g.1, (mem_stepped (blockSize_pos d)).mpr hx, rfl⟩⟩

theorem blockList_nodup (d : Dab) : (blockList d).Nodup := by
  unfold blockList
  rw [List.nodup_flatMap]
  constructor
  · intro gy _
    exact (stepped_nodup (blockSize_pos d)).map (fun a b h => congrArg Prod.fst h)
  · refine (stepped_nodup (blockSize_pos d)).imp ?_
    intro a b hab
    intro p hpa hpb
    obtain ⟨xa, _, hxa⟩ := List.mem_map.mp hpa
    obtain ⟨xb, _, hxb⟩ := List.mem_map.mp hpb
    apply hab
    have h1 : p.2 = a := by rw [← hxa]
    have h2 : p.2 = b := by rw [← hxb]
    omega

theorem blockList_dvd {d : Dab} {g : ℤ × ℤ} (h : g ∈ blockList d) :
    blockSize d ∣ g.1 ∧ blockSize d ∣ g.2 := by
  obtain ⟨⟨hdx, _, _⟩, ⟨hdy, _, _⟩⟩ := mem_blockList.mp h
  constructor
  · have := dvd_add hdx (dvd_gridStartX d)
    simpa using this
  · have := dvd_add hdy (dvd_gridStartY d)
    simpa using this

theorem cell_mem_blockList {d : Dab} {x y : ℤ} (hx1 : safeStartX d ≤ x) (hx2 : x < safeEndX d)
    (hy1 : safeStartY d ≤ y) (hy2 : y < safeEndY d) :
    (cellX d x, cellY d y) ∈ blockList d := by
  rw [mem_blockList]
  refine ⟨⟨?_, gridStartX_le d hx1, lt_of_le_of_lt (cellX_le d x) hx2⟩,
    ⟨?_, gridStartY_le d hy1, lt_of_le_of_lt (cellY_le d y) hy2⟩⟩
  · exact dvd_sub (dvd_cellX d x) (dvd_gridStartX d)
  · exact dvd_sub (dvd_cellY d y) (dvd_gridStartY d)

theorem mem_cell_blockPixels {d : Dab} {x y : ℤ} (hx1 : safeStartX d ≤ x) (hx2 : x < safeEndX d)
    (hy1 : safeStartY d ≤ y) (hy2 : y < safeEndY d) :
    (x, y) ∈ blockPixels d (cellX d x) (cellY d y) := by
  rw [mem_blockPixels]
  exact ⟨max_le hx1 (cellX_le d x), lt_min hx2 (lt_cellX_add d x),
    max_le hy1 (cellY_le d y), lt_min hy2 (lt_cellY_add d y)⟩

theorem cell_of_mem_blockPixels {d : Dab} {gx gy : ℤ} (hdx : blockSize d ∣ gx)
    (hdy : blockSize d ∣ gy) {q : ℤ × ℤ} (hq : q ∈ blockPixels d gx gy) :
    gx = cellX d q.1 ∧ gy = cellY d q.2 := by
  obtain ⟨h1, h2, h3, h4⟩ := mem_blockPixels.mp hq
  constructor
  · exact (cellX_eq_of_aligned hdx (le_of_max_le_right h1)
      (lt_of_lt_of_le h2 (min_le_right _ _))).symm
  · exact (cellY_eq_of_aligned hdy (le_of_max_le_right h3)
      (lt_of_lt_of_le h4 (min_le_right _ _))).symm

theorem blockPixels_coords {d : Dab} {gx gy : ℤ} {q : ℤ × ℤ} (hq : q ∈ blockPixels d gx gy) :
    safeStartX d ≤ q.1 ∧ q.1 < safeEndX d ∧ safeStartY d ≤ q.2 ∧ q.2 < safeEndY d := by
  obtain ⟨h1, h2, h3, h4⟩ := mem_blockPixels.mp hq
  exact ⟨le_of_max_le_left h1, lt_of_lt_of_le h2 (min_le_left _ _),
    le_of_max_le_left h3, lt_of_lt_of_le h4 (min_le_left _ _)⟩

end Pixelate

/-! Pixelate fold characterization. -/

namespace Pixelate

theorem local_coords {d : Dab} {q : ℤ × ℤ}
    (h : safeStartX d ≤ q.1 ∧ q.1 < safeEndX d ∧ safeStartY d ≤ q.2 ∧ q.2 < safeEndY d) :
    0 ≤ q.1 - safeStartX d ∧ q.1 - safeStartX d < safeWidth d ∧
      0 ≤ q.2 - safeStartY d ∧ q.2 - safeStartY d < safeHeight d := by
  unfold safeWidth safeHeight
  omega

theorem region_byte_inj {d : Dab} {p q : ℤ × ℤ} {cp cq : ℤ}
    (hp : safeStartX d ≤ p.1 ∧ p.1 < safeEndX d ∧ safeStartY d ≤ p.2 ∧ p.2 < safeEndY d)
    (hq : safeStartX d ≤ q.1 ∧ q.1 < safeEndX d ∧ safeStartY d ≤ q.2 ∧ q.2 < safeEndY d)
    (hcp : 0 ≤ cp) (hcp4 : cp < 4) (hcq : 0 ≤ cq) (hcq4 : cq < 4)
    (h : byteIdx (safeWidth d) (p.1 - safeStartX d) (p.2 - safeStartY d) cp =
      byteIdx (safeWidth d) (q.1 - safeStartX d) (q.2 - safeStartY d) cq) :
    p = q ∧ cp = cq := by
  obtain ⟨a1, a2, a3, a4⟩ := local_coords hp
  obtain ⟨b1, b2, b3, b4⟩ := local_coords hq
  obtain ⟨e1, e2, e3⟩ := byteIdx_inj a1 a2 b1 b2 hcp hcp4 hcq hcq4 h
  refine ⟨Prod.ext ?_ ?_, e3⟩ <;> omega

theorem writeRGB_ne {data : Buf} {idx : ℤ} {r g b : ℕ} {j : ℤ} (h0 : j ≠ idx)
    (h1 : j ≠ idx + 1) (h2 : j ≠ idx + 2) : writeRGB data idx r g b j = data j := by
  unfold writeRGB
  rw [if_neg h0, if_neg h1, if_neg h2]

theorem writeRGB_sel {data : Buf} {idx : ℤ} {r g b : ℕ} {c : ℤ} (hc : 0 ≤ c) (hc3 : c < 3) :
    writeRGB data idx r g b (idx + c) = rgbSel r g b c := by
  unfold writeRGB rgbSel
  have hc' : c = 0 ∨ c = 1 ∨ c = 2 := by omega
  rcases hc' with rfl | rfl | rfl
  · simp
  · rw [if_neg (by omega), if_pos rfl]
    rfl
  · rw [if_neg (by omega), if_neg (by omega), if_pos rfl]
    rfl

theorem paintFold_untouched {d : Dab} {r g b : ℕ} (l : List (ℤ × ℤ)) (data : Buf) {j : ℤ}
    (hj : ∀ q ∈ l, ∀ c : ℤ, 0 ≤ c → c < 3 →
      j ≠ byteIdx (safeWidth d) (q.1 - safeStartX d) (q.2 - safeStartY d) c) :
    (l.foldl
      (fun dat q =>
        if inCircle d.centerX d.centerY d.radius q.1 q.2 then
          writeRGB dat (byteIdx (safeWidth d) (q.1 - safeStartX d) (q.2 - safeStartY d) 0) r g b
        else dat)
      data) j = data j := by
  induction l generalizing data with
  | nil => rfl
  | cons q t ih =>
    rw [List.foldl_cons, ih _ (fun p hp => hj p (List.mem_cons_of_mem q hp))]
    by_cases hq : inCircle d.centerX d.centerY d.radius q.1 q.2
    · rw [if_pos hq]
      refine writeRGB_ne ?_ ?_ ?_
      · exact hj q (List.mem_cons_self q t) 0 le_rfl (by omega)
      · rw [byteIdx_add 1]
        exact hj q (List.mem_cons_self q t) 1 (by omega) (by omega)
      · rw [byteIdx_add 2]
        exact hj q (List.mem_cons_self q t) 2 (by omega) (by omega)
    · rw [if_neg hq]

theorem paintFold_at {d : Dab} {r g b : ℕ} (l : List (ℤ × ℤ)) (data : Buf) {q : ℤ × ℤ}
    (hq : q ∈ l) (hnd : l.Nodup)
    (hsub : ∀ p ∈ l, safeStartX d ≤ p.1 ∧ p.1 < safeEndX d ∧ safeStartY d ≤ p.2 ∧ p.2 < safeEndY d)
    {c : ℤ} (hc : 0 ≤ c) (hc4 : c < 4) :
    (l.foldl
      (fun dat p =>
        if inCircle d.centerX d.centerY d.radius p.1 p.2 then
          writeRGB dat (byteIdx (safeWidth d) (p.1 - safeStartX d) (p.2 - safeStartY d) 0) r g b
        else dat)
      data) (byteIdx (safeWidth d) (q.1 - safeStartX d) (q.2 - safeStartY d) c) =
      if inCircle d.centerX d.centerY d.radius q.1 q.2 ∧ c < 3 then rgbSel r g b c
      else data (byteIdx (safeWidth d) (q.1 - safeStartX d) (q.2 - safeStartY d) c) := by
  induction l generalizing data with
  | nil => cases hq
  | cons p t ih =>
    rw [List.foldl_cons]
    rcases List.mem_cons.mp hq with hqp | hqt
    · subst hqp
    -- the head is the target pixel: the step decides the value, the tail leaves it
      have hqmem := hsub q (List.mem_cons_self q t)
      have htail : (t.foldl
          (fun dat p =>
            if inCircle d.centerX d.centerY d.radius p.1 p.2 then
              writeRGB dat (byteIdx (safeWidth d) (p.1 - safeStartX d) (p.2 - safeStartY d) 0) r g b
            else dat)
          (if inCircle d.centerX d.centerY d.radius q.1 q.2 then
            writeRGB data (byteIdx (safeWidth d) (q.1 - safeStartX d) (q.2 - safeStartY d) 0) r g b
          else data))
          (byteIdx (safeWidth d) (q.1 - safeStartX d) (q.2 - safeStartY d) c) = _ :=
        paintFold_untouched t _ (fun p hp c' hc' hc3' heq => by
          have hpmem := hsub p (List.mem_cons_of_mem q hp)
          obtain ⟨hpq, -⟩ := region_byte_inj hqmem hpmem hc hc4 hc' (by omega) heq
          exact (List.nodup_cons.mp hnd).1 (hpq ▸ hp))
      rw [htail]
      by_cases hcirc : inCircle d.centerX d.centerY d.radius q.1 q.2
      · rw [if_pos hcirc]
        by_cases hc3 : c < 3
        · rw [if_pos ⟨hcirc, hc3⟩, ← byteIdx_add c, writeRGB_sel hc hc3]
        · have hc3' : c = 3 := by omega
          rw [if_neg (fun h => hc3 h.2)]
          subst hc3'
          refine writeRGB_ne ?_ ?_ ?_
          · intro h
            exact absurd (region_byte_inj hqmem hqmem (by omega) (by omega) (by omega) (by omega) h).2 (by omega)
          · intro h
            rw [byteIdx_add 1] at h
            exact absurd (region_byte_inj hqmem hqmem (by omega) (by omega) (by omega) (by omega) h).2 (by omega)
          · intro h
            rw [byteIdx_add 2] at h
            exact absurd (region_byte_inj hqmem hqmem (by omega) (by omega) (by omega) (by omega) h).2 (by omega)
      · rw [if_neg hcirc, if_neg (fun h => hcirc h.1)]
    · -- the head is a different pixel: its write cannot touch the target byte
      have hstep : (if inCircle d.centerX d.centerY d.radius p.1 p.2 then
          writeRGB data (byteIdx (safeWidth d) (p.1 - safeStartX d) (p.2 - safeStartY d) 0) r g b
        else data) (byteIdx (safeWidth d) (q.1 - safeStartX d) (q.2 - safeStartY d) c) =
          data (byteIdx (safeWidth d) (q.1 - safeStartX d) (q.2 - safeStartY d) c) := by
        by_cases hcirc : inCircle d.centerX d.centerY d.radius p.1 p.2
        · rw [if_pos hcirc]
          have hppmem := hsub p (List.mem_cons_self p t)
          have hqmem := hsub q hq
          have hpq : p ≠ q := by
            intro h
            subst h
            exact (List.nodup_cons.mp hnd).1 hqt
          refine writeRGB_ne ?_ ?_ ?_
          · intro h
            exact hpq ((region_byte_inj hqmem hppmem hc hc4 (by omega) (by omega) h).1).symm
          · intro h
            rw [byteIdx_add 1] at h
            exact hpq ((region_byte_inj hqmem hppmem hc hc4 (by omega) (by omega) h).1).symm
          · intro h
            rw [byteIdx_add 2] at h
            exact hpq ((region_byte_inj hqmem hppmem hc hc4 (by omega) (by omega) h).1).symm
        · rw [if_neg hcirc]
      have ih2 := ih
        (if inCircle d.centerX d.centerY d.radius p.1 p.2 then
          writeRGB data (byteIdx (safeWidth d) (p.1 - safeStartX d) (p.2 - safeStartY d) 0) r g b
        else data)
        hqt (List.nodup_cons.mp hnd).2
        (fun p hp => hsub p (List.mem_cons_of_mem _ hp))
      rw [ih2, hstep]

end Pixelate

namespace Pixelate

theorem processBlock_untouched {d : Dab} {data : Buf} {g : ℤ × ℤ} {j : ℤ}
    (hj : ∀ q ∈ blockPixels d g.1 g.2, ∀ c : ℤ, 0 ≤ c → c < 3 →
      j ≠ byteIdx (safeWidth d) (q.1 - safeStartX d) (q.2 - safeStartY d) c) :
    processBlock d data g j = data j := by
  unfold processBlock
  split_ifs with h1 h2
  · rfl
  · rfl
  · exact paintFold_untouched _ _ hj

theorem processBlock_at {d : Dab} {data : Buf} {g : ℤ × ℤ} {q : ℤ × ℤ}
    (hq : q ∈ blockPixels d g.1 g.2) {c : ℤ} (hc : 0 ≤ c) (hc4 : c < 4) :
    processBlock d data g (byteIdx (safeWidth d) (q.1 - safeStartX d) (q.2 - safeStartY d) c) =
      if inCircle d.centerX d.centerY d.radius q.1 q.2 ∧ c < 3 then
        blockAvg d data g.1 g.2 c
      else data (byteIdx (safeWidth d) (q.1 - safeStartX d) (q.2 - safeStartY d) c) := by
  obtain ⟨m1, m2, m3, m4⟩ := mem_blockPixels.mp hq
  unfold processBlock
  rw [if_neg (by push_neg; omega), if_neg (by
    intro h
    rw [blockCount, List.length_eq_zero] at h
    rw [h] at hq
    cases hq)]
  unfold paintBlock
  rw [paintFold_at (blockPixels d g.1 g.2) data hq (blockPixels_nodup d g.1 g.2)
    (fun p hp => blockPixels_coords hp) hc hc4]
  by_cases hcond : inCircle d.centerX d.centerY d.radius q.1 q.2 ∧ c < 3
  · rw [if_pos hcond, if_pos hcond]
    have hc' : c = 0 ∨ c = 1 ∨ c = 2 := by omega
    rcases hc' with rfl | rfl | rfl
    · rfl
    · rfl
    · rfl
  · rw [if_neg hcond, if_neg hcond]

theorem blockSum_congr {d : Dab} {data dat2 : Buf} {gx gy c : ℤ}
    (h : ∀ q ∈ blockPixels d gx gy,
      data (byteIdx (safeWidth d) (q.1 - safeStartX d) (q.2 - safeStartY d) c) =
        dat2 (byteIdx (safeWidth d) (q.1 - safeStartX d) (q.2 - safeStartY d) c)) :
    blockSum d data gx gy c = blockSum d dat2 gx gy c := by
  unfold blockSum
  exact congrArg List.sum (List.map_congr_left h)

theorem blockAvg_congr {d : Dab} {data dat2 : Buf} {gx gy c : ℤ}
    (h : ∀ q ∈ blockPixels d gx gy,
      data (byteIdx (safeWidth d) (q.1 - safeStartX d) (q.2 - safeStartY d) c) =
        dat2 (byteIdx (safeWidth d) (q.1 - safeStartX d) (q.2 - safeStartY d) c)) :
    blockAvg d data gx gy c = blockAvg d dat2 gx gy c := by
  unfold blockAvg
  rw [blockSum_congr h]

theorem blocksFold_untouched {d : Dab} (L : List (ℤ × ℤ)) (data : Buf) {j : ℤ}
    (hj : ∀ g ∈ L, ∀ q ∈ blockPixels d g.1 g.2, ∀ c : ℤ, 0 ≤ c → c < 3 →
      j ≠ byteIdx (safeWidth d) (q.1 - safeStartX d) (q.2 - safeStartY d) c) :
    (L.foldl (processBlock d) data) j = data j := by
  induction L generalizing data with
  | nil => rfl
  | cons g T ih =>
    rw [List.foldl_cons, ih _ (fun g' hg' => hj g' (List.mem_cons_of_mem g hg')),
      processBlock_untouched (hj g (List.mem_cons_self g T))]

theorem blocksFold_at {d : Dab} (L : List (ℤ × ℤ))
    (hL : ∀ g ∈ L, blockSize d ∣ g.1 ∧ blockSize d ∣ g.2) (hnd : L.Nodup) (data : Buf)
    {x y c : ℤ} (hx1 : safeStartX d ≤ x) (hx2 : x < safeEndX d) (hy1 : safeStartY d ≤ y)
    (hy2 : y < safeEndY d) (hc : 0 ≤ c) (hc4 : c < 4) :
    (L.foldl (processBlock d) data)
        (byteIdx (safeWidth d) (x - safeStartX d) (y - safeStartY d) c) =
      if (cellX d x, cellY d y) ∈ L ∧ inCircle d.centerX d.centerY d.radius x y ∧ c < 3 then
        blockAvg d data (cellX d x) (cellY d y) c
      else data (byteIdx (safeWidth d) (x - safeStartX d) (y - safeStartY d) c) := by
  have hxy : safeStartX d ≤ (x, y).1 ∧ (x, y).1 < safeEndX d ∧
      safeStartY d ≤ (x, y).2 ∧ (x, y).2 < safeEndY d := ⟨hx1, hx2, hy1, hy2⟩
  induction L generalizing data with
  | nil =>
    rw [List.foldl_nil, if_neg (fun h => by cases h.1)]
  | cons g T ih =>
    rw [List.foldl_cons]
    by_cases hgc : g = (cellX d x, cellY d y)
    · -- the head is the cell of the target pixel
      subst hgc
      have hqmem : ((x, y) : ℤ × ℤ) ∈ blockPixels d (cellX d x) (cellY d y) :=
        mem_cell_blockPixels hx1 hx2 hy1 hy2
      have hstep := @processBlock_at d data (cellX d x, cellY d y) (x, y) hqmem c hc hc4
      have htail : (T.foldl (processBlock d) (processBlock d data (cellX d x, cellY d y)))
          (byteIdx (safeWidth d) (x - safeStartX d) (y - safeStartY d) c) =
          (processBlock d data (cellX d x, cellY d y))
            (byteIdx (safeWidth d) (x - safeStartX d) (y - safeStartY d) c) := by
        refine blocksFold_untouched T _ (fun g' hg' q hqg' c' hc' hc3' heq => ?_)
        have hqmem' := blockPixels_coords hqg'
        obtain ⟨rfl, -⟩ := region_byte_inj hxy hqmem' hc hc4 hc' (by omega) heq
        obtain ⟨he1, he2⟩ := cell_of_mem_blockPixels (hL g' (List.mem_cons_of_mem _ hg')).1
          (hL g' (List.mem_cons_of_mem _ hg')).2 hqg'
        have hg'eq : g' = (cellX d x, cellY d y) := by
          have h1 : g'.1 = cellX d x := by simpa using he1
          have h2 : g'.2 = cellY d y := by simpa using he2
          exact Prod.ext h1 h2
        exact (List.nodup_cons.mp hnd).1 (hg'eq ▸ hg')
      rw [htail, hstep]
      by_cases hcond : (inCircle d.centerX d.centerY d.radius x y = true) ∧ c < 3
      · rw [if_pos hcond, if_pos ⟨List.mem_cons_self _ _, hcond.1, hcond.2⟩]
      · rw [if_neg hcond, if_neg (fun h => hcond ⟨h.2.1, h.2.2⟩)]
    · -- the head is a different block: the byte and its cell are untouched
      have hstep : processBlock d data g
          (byteIdx (safeWidth d) (x - safeStartX d) (y - safeStartY d) c) =
          data (byteIdx (safeWidth d) (x - safeStartX d) (y - safeStartY d) c) := by
        refine processBlock_untouched (fun q hqg c' hc' hc3' heq => ?_)
        have hqmem' := blockPixels_coords hqg
        obtain ⟨rfl, -⟩ := region_byte_inj hxy hqmem' hc hc4 hc' (by omega) heq
        obtain ⟨he1, he2⟩ := cell_of_mem_blockPixels (hL g (List.mem_cons_self g T)).1
          (hL g (List.mem_cons_self g T)).2 hqg
        refine hgc ?_
        have h1 : g.1 = cellX d x := by simpa using he1
        have h2 : g.2 = cellY d y := by simpa using he2
        exact Prod.ext h1 h2
      have havg : blockAvg d (processBlock d data g) (cellX d x) (cellY d y) c =
          blockAvg d data (cellX d x) (cellY d y) c := by
        refine blockAvg_congr (fun q hqcell => ?_)
        refine processBlock_untouched (fun p hpg c' hc' hc3' heq => ?_)
        have hqmem' := blockPixels_coords hqcell
        have hpmem' := blockPixels_coords hpg
        obtain ⟨rfl, -⟩ := region_byte_inj hqmem' hpmem' hc hc4 hc' (by omega) heq
        obtain ⟨he1, he2⟩ := cell_of_mem_blockPixels (hL g (List.mem_cons_self g T)).1
          (hL g (List.mem_cons_self g T)).2 hpg
        obtain ⟨hf1, hf2⟩ := cell_of_mem_blockPixels (dvd_cellX d x) (dvd_cellY d y) hqcell
        refine hgc ?_
        have h1 : g.1 = cellX d x := by
          have hf1' : cellX d x = cellX d q.1 := by simpa using hf1
          rw [he1, ← hf1']
        have h2 : g.2 = cellY d y := by
          have hf2' : cellY d y = cellY d q.2 := by simpa using hf2
          rw [he2, ← hf2']
        exact Prod.ext h1 h2
      have ih2 := ih (fun g' hg' => hL g' (List.mem_cons_of_mem g hg'))
        (List.nodup_cons.mp hnd).2 (processBlock d data g)
      rw [ih2, hstep, havg]
      have hcond : ((cellX d x, cellY d y) ∈ g :: T ∧
          inCircle d.centerX d.centerY d.radius x y = true ∧ c < 3) ↔
          ((cellX d x, cellY d y) ∈ T ∧
            inCircle d.centerX d.centerY d.radius x y = true ∧ c < 3) := by
        constructor
        · rintro ⟨hm, h2⟩
          rcases List.mem_cons.mp hm with hmg | hmt
          · exact absurd hmg.symm hgc
          · exact ⟨hmt, h2⟩
        · rintro ⟨hm, h2⟩
          exact ⟨List.mem_cons_of_mem _ hm, h2⟩
      rw [if_congr hcond rfl rfl]

end Pixelate

/-! Characterization of the whole applyPixelate call. -/

theorem getImageData_at {w : ℤ} {buf : Buf} {sx sy sw lx ly c : ℤ} (hlx : 0 ≤ lx) (hlx2 : lx < sw)
    (hc : 0 ≤ c) (hc4 : c < 4) :
    getImageData w buf sx sy sw (byteIdx sw lx ly c) = buf (byteIdx w (sx + lx) (sy + ly) c) := by
  unfold getImageData
  obtain ⟨e1, e2, e3⟩ := @byteIdx_decode sw lx ly c hlx hlx2 hc hc4
  rw [e1, e2, e3]

theorem putImageData_in {w : ℤ} {buf img : Buf} {sx sy sw sh x y c : ℤ} (hx : 0 ≤ x) (hxw : x < w)
    (hc : 0 ≤ c) (hc4 : c < 4) (hcond : sx ≤ x ∧ x < sx + sw ∧ sy ≤ y ∧ y < sy + sh) :
    putImageData w buf sx sy sw sh img (byteIdx w x y c) =
      img (byteIdx sw (x - sx) (y - sy) c) := by
  unfold putImageData
  obtain ⟨e1, e2, e3⟩ := @byteIdx_decode w x y c hx hxw hc hc4
  rw [e1, e2, e3, if_pos hcond]

theorem putImageData_out {w : ℤ} {buf img : Buf} {sx sy sw sh i : ℤ}
    (h : ¬(sx ≤ i / 4 % w ∧ i / 4 % w < sx + sw ∧ sy ≤ i / 4 / w ∧ i / 4 / w < sy + sh)) :
    putImageData w buf sx sy sw sh img i = buf i := by
  unfold putImageData
  rw [if_neg h]

namespace Pixelate

theorem applyPixelate_in_region (d : Dab) (buf : Buf) {x y c : ℤ}
    (hx1 : safeStartX d ≤ x) (hx2 : x < safeEndX d) (hy1 : safeStartY d ≤ y)
    (hy2 : y < safeEndY d) (hc : 0 ≤ c) (hc4 : c < 4) :
    applyPixelate d true buf (byteIdx d.width x y c) =
      if inCircle d.centerX d.centerY d.radius x y ∧ c < 3 then
        cellVisibleAvg d buf (cellX d x) (cellY d y) c
      else buf (byteIdx d.width x y c) := by
  have hx0 : 0 ≤ x := le_trans (safeStartX_nonneg d) hx1
  have hxw : x < d.width := lt_of_lt_of_le hx2 (safeEndX_le_width d)
  have hy0 : 0 ≤ y := le_trans (safeStartY_nonneg d) hy1
  have hsw : 0 < safeWidth d := by unfold safeWidth; omega
  have hsh : 0 < safeHeight d := by unfold safeHeight; omega
  unfold applyPixelate
  rw [if_neg (by omega), if_pos rfl]
  rw [putImageData_in hx0 hxw hc hc4 (by unfold safeWidth safeHeight at *; omega)]
  rw [blocksFold_at (blockList d) (fun g hg => blockList_dvd hg) (blockList_nodup d) _
    hx1 hx2 hy1 hy2 hc hc4]
  have hmem : (cellX d x, cellY d y) ∈ blockList d := cell_mem_blockList hx1 hx2 hy1 hy2
  by_cases hcond : (inCircle d.centerX d.centerY d.radius x y = true) ∧ c < 3
  · rw [if_pos ⟨hmem, hcond.1, hcond.2⟩, if_pos hcond]
    unfold blockAvg cellVisibleAvg blockSum cellVisibleSum blockCount
    refine congrArg₂ _ (congrArg List.sum (List.map_congr_left (fun q hq => ?_))) rfl
    obtain ⟨q1, q2, q3, q4⟩ := blockPixels_coords hq
    obtain ⟨l1, l2, l3, l4⟩ := local_coords ⟨q1, q2, q3, q4⟩
    rw [getImageData_at l1 l2 hc hc4]
    refine congrArg buf ?_
    refine congrArg₂ (fun a b => byteIdx d.width a b c) ?_ ?_ <;> omega
  · rw [if_neg (fun h => hcond ⟨h.2.1, h.2.2⟩), if_neg hcond]
    obtain ⟨l1, l2, l3, l4⟩ := @local_coords d (x, y) ⟨hx1, hx2, hy1, hy2⟩
    rw [getImageData_at l1 l2 hc hc4]
    refine congrArg buf ?_
    refine congrArg₂ (fun a b => byteIdx d.width a b c) ?_ ?_ <;> omega

theorem applyPixelate_not_region (d : Dab) (ro : Bool) (buf : Buf) {i : ℤ}
    (h : ¬(safeStartX d ≤ i / 4 % d.width ∧ i / 4 % d.width < safeStartX d + safeWidth d ∧
      safeStartY d ≤ i / 4 / d.width ∧ i / 4 / d.width < safeStartY d + safeHeight d)) :
    applyPixelate d ro buf i = buf i := by
  unfold applyPixelate
  split_ifs with h1 h2
  · rfl
  · exact putImageData_out h
  · rfl

theorem applyPixelate_degenerate (d : Dab) (ro : Bool) (buf : Buf) (i : ℤ)
    (h : safeWidth d ≤ 0 ∨ safeHeight d ≤ 0) : applyPixelate d ro buf i = buf i := by
  unfold applyPixelate
  rw [if_pos h]

theorem applyPixelate_readFail (d : Dab) (buf : Buf) (i : ℤ) :
    applyPixelate d false buf i = buf i := by
  unfold applyPixelate
  split_ifs with h1 h2
  · rfl
  · cases h2
  · rfl

end Pixelate

/-! Noise fold characterization. -/

namespace Noise

theorem safeX_nonneg (d : Dab) : 0 ≤ safeX d := le_max_left 0 _

theorem safeY_nonneg (d : Dab) : 0 ≤ safeY d := le_max_left 0 _

theorem imgW_le (d : Dab) : imgW d ≤ d.width - safeX d := by
  unfold imgW
  calc ⌊safeW d⌋ ≤ ⌊((d.width : ℚ) - (safeX d : ℚ))⌋ :=
        Int.floor_le_floor (min_le_left _ _)
    _ = d.width - safeX d := by
        rw [show ((d.width : ℚ) - (safeX d : ℚ)) = (((d.width - safeX d : ℤ)) : ℚ) by push_cast; ring,
          Int.floor_intCast]

theorem imgH_le (d : Dab) : imgH d ≤ d.height - safeY d := by
  unfold imgH
  calc ⌊safeH d⌋ ≤ ⌊((d.height : ℚ) - (safeY d : ℚ))⌋ :=
        Int.floor_le_floor (min_le_left _ _)
    _ = d.height - safeY d := by
        rw [show ((d.height : ℚ) - (safeY d : ℚ)) = (((d.height - safeY d : ℤ)) : ℚ) by push_cast; ring,
          Int.floor_intCast]

theorem mem_noisePixels {d : Dab} {q : ℤ × ℤ} :
    q ∈ noisePixels d ↔ 0 ≤ q.1 ∧ q.1 < imgW d ∧ 0 ≤ q.2 ∧ q.2 < imgH d := by
  unfold noisePixels
  rw [List.mem_flatMap]
  constructor
  · rintro ⟨y, hy, hq⟩
    obtain ⟨x, hx, hxe⟩ := List.mem_map.mp hq
    rw [mem_rangeZ] at hy hx
    rw [← hxe]
    exact ⟨hx.1, hx.2, hy.1, hy.2⟩
  · rintro ⟨h1, h2, h3, h4⟩
    exact ⟨q.2, mem_rangeZ.mpr ⟨h3, h4⟩,
      List.mem_map.mpr ⟨q.1, mem_rangeZ.mpr ⟨h1, h2⟩, rfl⟩⟩

theorem noisePixels_split (d : Dab) {lx ly : ℤ} (hx1 : 0 ≤ lx) (hx2 : lx < imgW d)
    (hy1 : 0 ≤ ly) (hy2 : ly < imgH d) :
    noisePixels d = noiseBefore d lx ly ++ (lx, ly) :: noiseAfter d lx ly := by
  unfold noisePixels noiseBefore noiseAfter
  rw [rangeZ_split hy1 hy2, List.flatMap_append, List.flatMap_cons]
  nth_rewrite 2 [rangeZ_split hx1 hx2]
  rw [List.map_append, List.map_cons]
  simp [List.append_assoc]

theorem not_mem_noiseBefore (d : Dab) (lx ly : ℤ) : (lx, ly) ∉ noiseBefore d lx ly := by
  unfold noiseBefore
  intro h
  rcases List.mem_append.mp h with h | h
  · obtain ⟨y, hy, hq⟩ := List.mem_flatMap.mp h
    obtain ⟨x, _, hxe⟩ := List.mem_map.mp hq
    rw [mem_rangeZ] at hy
    have : y = ly := congrArg Prod.snd hxe
    omega
  · obtain ⟨x, hx, hxe⟩ := List.mem_map.mp h
    rw [mem_rangeZ] at hx
    have : x = lx := congrArg Prod.fst hxe
    omega

theorem not_mem_noiseAfter (d : Dab) (lx ly : ℤ) : (lx, ly) ∉ noiseAfter d lx ly := by
  unfold noiseAfter
  intro h
  rcases List.mem_append.mp h with h | h
  · obtain ⟨x, hx, hxe⟩ := List.mem_map.mp h
    rw [mem_rangeZ] at hx
    have : x = lx := congrArg Prod.fst hxe
    omega
  · obtain ⟨y, hy, hq⟩ := List.mem_flatMap.mp h
    obtain ⟨x, _, hxe⟩ := List.mem_map.mp hq
    rw [mem_rangeZ] at hy
    have : y = ly := congrArg Prod.snd hxe
    omega

theorem noiseFold_snd (d : Dab) (rand : ℕ → ℚ) (l : List (ℤ × ℤ)) (st : Buf × ℕ) :
    (l.foldl (noiseStep d rand) st).2 = st.2 + 3 * l.countP
      (fun p => inCircle d.centerX d.centerY d.radius (safeX d + p.1) (safeY d + p.2)) := by
  induction l generalizing st with
  | nil => simp
  | cons p t ih =>
    rw [List.foldl_cons, ih]
    by_cases h : inCircle d.centerX d.centerY d.radius (safeX d + p.1) (safeY d + p.2)
    · have hstep : (noiseStep d rand st p).2 = st.2 + 3 := by
        unfold noiseStep
        rw [if_pos h]
      have hcnt : List.countP
          (fun p => inCircle d.centerX d.centerY d.radius (safeX d + p.1) (safeY d + p.2)) (p :: t) =
          List.countP
            (fun p => inCircle d.centerX d.centerY d.radius (safeX d + p.1) (safeY d + p.2)) t + 1 := by
        rw [List.countP_cons, if_pos h]
      rw [hstep, hcnt]
      omega
    · have hstep : (noiseStep d rand st p).2 = st.2 := by
        unfold noiseStep
        rw [if_neg h]
      have hcnt : List.countP
          (fun p => inCircle d.centerX d.centerY d.radius (safeX d + p.1) (safeY d + p.2)) (p :: t) =
          List.countP
            (fun p => inCircle d.centerX d.centerY d.radius (safeX d + p.1) (safeY d + p.2)) t := by
        rw [List.countP_cons, if_neg h]
        omega
      rw [hstep, hcnt]

theorem noiseStep_fst_ne {d : Dab} {rand : ℕ → ℚ} {st : Buf × ℕ} {q : ℤ × ℤ} {j : ℤ}
    (hj : ∀ c : ℤ, 0 ≤ c → c < 3 → j ≠ byteIdx (imgW d) q.1 q.2 c) :
    (noiseStep d rand st q).1 j = st.1 j := by
  unfold noiseStep
  split_ifs with h
  · show (if j = byteIdx (imgW d) q.1 q.2 0 then _ else
      if j = byteIdx (imgW d) q.1 q.2 0 + 1 then _ else
      if j = byteIdx (imgW d) q.1 q.2 0 + 2 then _ else st.1 j) = st.1 j
    rw [if_neg (hj 0 le_rfl (by omega)),
      if_neg (by rw [byteIdx_add 1]; exact hj 1 (by omega) (by omega)),
      if_neg (by rw [byteIdx_add 2]; exact hj 2 (by omega) (by omega))]
  · rfl

theorem noiseFold_fst_ne (d : Dab) (rand : ℕ → ℚ) (l : List (ℤ × ℤ)) (st : Buf × ℕ) {j : ℤ}
    (hj : ∀ q ∈ l, ∀ c : ℤ, 0 ≤ c → c < 3 → j ≠ byteIdx (imgW d) q.1 q.2 c) :
    (l.foldl (noiseStep d rand) st).1 j = st.1 j := by
  induction l generalizing st with
  | nil => rfl
  | cons p t ih =>
    rw [List.foldl_cons, ih _ (fun p' hp' => hj p' (List.mem_cons_of_mem p hp')),
      noiseStep_fst_ne (hj p (List.mem_cons_self p t))]

end Noise

namespace Noise

theorem noise_byte_inj {d : Dab} {p q : ℤ × ℤ} {cp cq : ℤ} (hp : 0 ≤ p.1 ∧ p.1 < imgW d)
    (hq : 0 ≤ q.1 ∧ q.1 < imgW d) (hcp : 0 ≤ cp) (hcp4 : cp < 4) (hcq : 0 ≤ cq) (hcq4 : cq < 4)
    (h : byteIdx (imgW d) p.1 p.2 cp = byteIdx (imgW d) q.1 q.2 cq) : p = q ∧ cp = cq := by
  obtain ⟨e1, e2, e3⟩ := byteIdx_inj hp.1 hp.2 hq.1 hq.2 hcp hcp4 hcq hcq4 h
  exact ⟨Prod.ext e1 e2, e3⟩

theorem noiseStep_fst_at (d : Dab) (rand : ℕ → ℚ) (st : Buf × ℕ) (q : ℤ × ℤ) {c : ℤ}
    (hc : 0 ≤ c) (hc4 : c < 4) :
    (noiseStep d rand st q).1 (byteIdx (imgW d) q.1 q.2 c) =
      if inCircle d.centerX d.centerY d.radius (safeX d + q.1) (safeY d + q.2) ∧ c < 3 then
        storeByte (st.1 (byteIdx (imgW d) q.1 q.2 c)) ((rand (st.2 + c.toNat) - 1 / 2) * variance d)
      else st.1 (byteIdx (imgW d) q.1 q.2 c) := by
  unfold noiseStep
  by_cases hcirc : inCircle d.centerX d.centerY d.radius (safeX d + q.1) (safeY d + q.2)
  · rw [if_pos hcirc]
    dsimp only
    have hcases : c = 0 ∨ c = 1 ∨ c = 2 ∨ c = 3 := by omega
    rcases hcases with rfl | rfl | rfl | rfl
    · rw [if_pos rfl, if_pos ⟨hcirc, by omega⟩]
      norm_num
    · rw [if_neg (by unfold byteIdx; omega), if_pos (by unfold byteIdx; ring),
        if_pos ⟨hcirc, by omega⟩, byteIdx_add 1]
      norm_num
    · rw [if_neg (by unfold byteIdx; omega), if_neg (by unfold byteIdx; omega),
        if_pos (by unfold byteIdx; ring), if_pos ⟨hcirc, by omega⟩, byteIdx_add 2]
      rfl
    · rw [if_neg (by unfold byteIdx; omega), if_neg (by unfold byteIdx; omega),
        if_neg (by unfold byteIdx; omega), if_neg (fun h => by omega)]
  · rw [if_neg hcirc, if_neg (fun h => hcirc h.1)]

theorem noiseFold_split_at (d : Dab) (rand : ℕ → ℚ) (l1 l2 : List (ℤ × ℤ)) (q : ℤ × ℤ)
    (data : Buf) (k : ℕ) (hq1 : q ∉ l1) (hq2 : q ∉ l2) (hqx : 0 ≤ q.1 ∧ q.1 < imgW d)
    (h1x : ∀ p ∈ l1, 0 ≤ p.1 ∧ p.1 < imgW d) (h2x : ∀ p ∈ l2, 0 ≤ p.1 ∧ p.1 < imgW d)
    {c : ℤ} (hc : 0 ≤ c) (hc4 : c < 4) :
    (((l1 ++ q :: l2).foldl (noiseStep d rand) (data, k)).1) (byteIdx (imgW d) q.1 q.2 c) =
      if inCircle d.centerX d.centerY d.radius (safeX d + q.1) (safeY d + q.2) ∧ c < 3 then
        storeByte (data (byteIdx (imgW d) q.1 q.2 c))
          ((rand (k + 3 * l1.countP
              (fun p => inCircle d.centerX d.centerY d.radius (safeX d + p.1) (safeY d + p.2)) +
            c.toNat) - 1 / 2) * variance d)
      else data (byteIdx (imgW d) q.1 q.2 c) := by
  rw [List.foldl_append, List.foldl_cons]
  have hagree : ∀ c' : ℤ, 0 ≤ c' → c' < 4 →
      (l1.foldl (noiseStep d rand) (data, k)).1 (byteIdx (imgW d) q.1 q.2 c') =
        data (byteIdx (imgW d) q.1 q.2 c') := by
    intro c' hc' hc4'
    refine noiseFold_fst_ne d rand l1 _ (fun p hp c'' hc'' hc3'' heq => ?_)
    obtain ⟨rfl, -⟩ := noise_byte_inj hqx (h1x p hp) hc' hc4' hc'' (by omega) heq
    exact hq1 hp
  have hsnd := noiseFold_snd d rand l1 (data, k)
  rw [noiseFold_fst_ne d rand l2 _ (fun p hp c'' hc'' hc3'' heq => by
    obtain ⟨rfl, -⟩ := noise_byte_inj hqx (h2x p hp) hc hc4 hc'' (by omega) heq
    exact hq2 hp)]
  rw [noiseStep_fst_at d rand _ q hc hc4, hagree c hc hc4, hsnd]

end Noise

namespace Noise

theorem mem_noiseBefore_bounds {d : Dab} {lx ly : ℤ} {p : ℤ × ℤ} (hp : p ∈ noiseBefore d lx ly)
    (hlx : lx ≤ imgW d) : 0 ≤ p.1 ∧ p.1 < imgW d := by
  unfold noiseBefore at hp
  rcases List.mem_append.mp hp with h | h
  · obtain ⟨y, hy, hq⟩ := List.mem_flatMap.mp h
    obtain ⟨x, hx, hxe⟩ := List.mem_map.mp hq
    rw [mem_rangeZ] at hx
    have h1 : p.1 = x := (congrArg Prod.fst hxe).symm
    omega
  · obtain ⟨x, hx, hxe⟩ := List.mem_map.mp h
    rw [mem_rangeZ] at hx
    have h1 : p.1 = x := (congrArg Prod.fst hxe).symm
    omega

theorem mem_noiseAfter_bounds {d : Dab} {lx ly : ℤ} {p : ℤ × ℤ} (hp : p ∈ noiseAfter d lx ly)
    (hlx : 0 ≤ lx) : 0 ≤ p.1 ∧ p.1 < imgW d := by
  unfold noiseAfter at hp
  rcases List.mem_append.mp hp with h | h
  · obtain ⟨x, hx, hxe⟩ := List.mem_map.mp h
    rw [mem_rangeZ] at hx
    have h1 : p.1 = x := (congrArg Prod.fst hxe).symm
    omega
  · obtain ⟨y, hy, hq⟩ := List.mem_flatMap.mp h
    obtain ⟨x, hx, hxe⟩ := List.mem_map.mp hq
    rw [mem_rangeZ] at hx
    have h1 : p.1 = x := (congrArg Prod.fst hxe).symm
    omega

theorem applyNoise_in_region (d : Dab) (rand : ℕ → ℚ) (buf : Buf) {x y c : ℤ}
    (hx1 : safeX d ≤ x) (hx2 : x < safeX d + imgW d) (hy1 : safeY d ≤ y)
    (hy2 : y < safeY d + imgH d) (hc : 0 ≤ c) (hc4 : c < 4) :
    applyNoise d true rand buf (byteIdx d.width x y c) =
      if inCircle d.centerX d.centerY d.radius x y ∧ c < 3 then
        storeByte (buf (byteIdx d.width x y c))
          ((rand (drawBase d (x - safeX d) (y - safeY d) + c.toNat) - 1 / 2) * variance d)
      else buf (byteIdx d.width x y c) := by
  have hx0 : 0 ≤ x := le_trans (safeX_nonneg d) hx1
  have hy0 : 0 ≤ y := le_trans (safeY_nonneg d) hy1
  have hxw : x < d.width := by have := imgW_le d; omega
  have hW1 : (1:ℤ) ≤ imgW d := by omega
  have hH1 : (1:ℤ) ≤ imgH d := by omega
  have hsafeW : (0:ℚ) < safeW d := by
    have h := Int.le_floor.mp (show (1:ℤ) ≤ ⌊safeW d⌋ from hW1)
    push_cast at h
    linarith
  have hsafeH : (0:ℚ) < safeH d := by
    have h := Int.le_floor.mp (show (1:ℤ) ≤ ⌊safeH d⌋ from hH1)
    push_cast at h
    linarith
  unfold applyNoise
  rw [if_neg (by push_neg; exact ⟨hsafeW, hsafeH⟩), if_neg (by omega), if_pos rfl]
  rw [putImageData_in hx0 hxw hc hc4 ⟨hx1, hx2, hy1, hy2⟩]
  rw [noisePixels_split d (show 0 ≤ x - safeX d by omega) (show x - safeX d < imgW d by omega)
    (show 0 ≤ y - safeY d by omega) (show y - safeY d < imgH d by omega)]
  have hsplit := noiseFold_split_at d rand (noiseBefore d (x - safeX d) (y - safeY d))
    (noiseAfter d (x - safeX d) (y - safeY d)) (x - safeX d, y - safeY d)
    (getImageData d.width buf (safeX d) (safeY d) (imgW d)) 0
    (not_mem_noiseBefore d _ _) (not_mem_noiseAfter d _ _)
    ⟨by omega, by omega⟩
    (fun p hp => mem_noiseBefore_bounds hp (by omega))
    (fun p hp => mem_noiseAfter_bounds hp (by omega))
    hc hc4
  dsimp only at hsplit
  rw [hsplit]
  have hxx : safeX d + (x - safeX d) = x := by ring
  have hyy : safeY d + (y - safeY d) = y := by ring
  rw [getImageData_at (by omega) (by omega) hc hc4, hxx, hyy, Nat.zero_add]
  rfl

theorem applyNoise_not_region (d : Dab) (ro : Bool) (rand : ℕ → ℚ) (buf : Buf) {i : ℤ}
    (h : ¬(safeX d ≤ i / 4 % d.width ∧ i / 4 % d.width < safeX d + imgW d ∧
      safeY d ≤ i / 4 / d.width ∧ i / 4 / d.width < safeY d + imgH d)) :
    applyNoise d ro rand buf i = buf i := by
  unfold applyNoise
  split_ifs with h1 h2 h3
  · rfl
  · rfl
  · exact putImageData_out h
  · rfl

theorem applyNoise_degenerate (d : Dab) (ro : Bool) (rand : ℕ → ℚ) (buf : Buf) (i : ℤ)
    (h : imgW d ≤ 0 ∨ imgH d ≤ 0) : applyNoise d ro rand buf i = buf i := by
  unfold applyNoise
  split_ifs with h1 h2 h3
  · rfl
  · rfl
  · exfalso
    push_neg at h1 h2
    have hw0 : 0 ≤ imgW d := Int.floor_nonneg.mpr h1.1.le
    have hh0 : 0 ≤ imgH d := Int.floor_nonneg.mpr h1.2.le
    rcases h with h | h
    · exact h2.1 (by omega)
    · exact h2.2 (by omega)
  · rfl

theorem applyNoise_readFail (d : Dab) (rand : ℕ → ℚ) (buf : Buf) (i : ℤ) :
    applyNoise d false rand buf i = buf i := by
  unfold applyNoise
  split_ifs with h1 h2 h3
  · rfl
  · rfl
  · cases h3
  · rfl

end Noise

/-! Bounds and out-of-canvas locality. -/

namespace Noise

theorem storeByte_le (old : ℕ) (delta : ℚ) : storeByte old delta ≤ 255 := by
  unfold storeByte clampByte
  set q : ℚ := min 255 (max 0 ((old : ℚ) + delta)) with hq
  have hq255 : q ≤ 255 := min_le_left _ _
  have hfl : (⌊q⌋ : ℚ) ≤ q := Int.floor_le q
  have hfl255 : ⌊q⌋ ≤ 255 := by
    have : (⌊q⌋ : ℚ) ≤ 255 := le_trans hfl hq255
    exact_mod_cast this
  split_ifs with h1 h2 h3
  · rw [Int.toNat_le]
    exact_mod_cast hfl255
  · rw [Int.toNat_le]
    have h254 : (⌊q⌋ : ℚ) < 255 := by linarith
    have : ⌊q⌋ < 255 := by exact_mod_cast h254
    push_cast
    omega
  · rw [Int.toNat_le]
    exact_mod_cast hfl255
  · rw [Int.toNat_le]
    have h254 : (⌊q⌋ : ℚ) < 255 := by linarith
    have : ⌊q⌋ < 255 := by exact_mod_cast h254
    push_cast
    omega

theorem safeW_nonpos_of_width (d : Dab) (h : d.width ≤ 0) : safeW d ≤ 0 := by
  unfold safeW
  refine le_trans (min_le_left _ _) ?_
  have h1 : 0 ≤ safeX d := safeX_nonneg d
  have h2 : (d.width : ℚ) ≤ 0 := by exact_mod_cast h
  have h3 : (0:ℚ) ≤ (safeX d : ℚ) := by exact_mod_cast h1
  linarith

theorem safeH_nonpos_of_height (d : Dab) (h : d.height ≤ 0) : safeH d ≤ 0 := by
  unfold safeH
  refine le_trans (min_le_left _ _) ?_
  have h1 : 0 ≤ safeY d := safeY_nonneg d
  have h2 : (d.height : ℚ) ≤ 0 := by exact_mod_cast h
  have h3 : (0:ℚ) ≤ (safeY d : ℚ) := by exact_mod_cast h1
  linarith

theorem applyNoise_guard (d : Dab) (ro : Bool) (rand : ℕ → ℚ) (buf : Buf) (i : ℤ)
    (h : safeW d ≤ 0 ∨ safeH d ≤ 0) : applyNoise d ro rand buf i = buf i := by
  unfold applyNoise
  rw [if_pos h]

end Noise

namespace Pixelate

theorem safeWidth_nonpos_of_width (d : Dab) (h : d.width ≤ 0) : safeWidth d ≤ 0 := by
  have h1 : 0 ≤ safeStartX d := safeStartX_nonneg d
  have h2 : safeEndX d ≤ d.width := safeEndX_le_width d
  unfold safeWidth
  omega

theorem safeHeight_nonpos_of_height (d : Dab) (h : d.height ≤ 0) : safeHeight d ≤ 0 := by
  have h1 : 0 ≤ safeStartY d := safeStartY_nonneg d
  have h2 : safeEndY d ≤ d.height := safeEndY_le_height d
  unfold safeHeight
  omega

end Pixelate

theorem decode_outside {w h i : ℤ} (hw : 0 < w) (hh : 0 < h)
    (hi : i < 0 ∨ 4 * w * h ≤ i) : i / 4 / w < 0 ∨ h ≤ i / 4 / w := by
  rcases hi with hi | hi
  · left
    have h4 : i / 4 ≤ (-1) / 4 := Int.ediv_le_ediv (by omega) (by omega)
    have h4' : ((-1):ℤ) / 4 = -1 := by decide
    have hyw : i / 4 / w ≤ (-1) / w := Int.ediv_le_ediv hw (by omega)
    have hw1 : ((-1):ℤ) / w ≤ -1 := by
      nlinarith [@ediv_mul_le_self (-1) w hw, @lt_ediv_mul_add (-1) w hw]
    omega
  · right
    have h4 : 4 * (w * h) ≤ i := by linarith [hi]
    have hq : w * h ≤ i / 4 := by
      rw [Int.le_ediv_iff_mul_le (by omega : (0:ℤ) < 4)]
      linarith
    have : h ≤ i / 4 / w := by
      rw [Int.le_ediv_iff_mul_le hw]
      linarith [hq]
    exact this

open Pixelate Noise in
/-- Any byte is either untouched by `applyPixelate`, or (when its channel is a
colour channel and its pixel passes the circle test) rewritten to the block
average of its grid cell. -/
theorem applyPixelate_byte (d : Dab) (ro : Bool) (buf : Buf) (i : ℤ) :
    applyPixelate d ro buf i = buf i ∨
      (i % 4 < 3 ∧
        inCircle d.centerX d.centerY d.radius (i / 4 % d.width) (i / 4 / d.width) = true ∧
        applyPixelate d ro buf i =
          cellVisibleAvg d buf (cellX d (i / 4 % d.width)) (cellY d (i / 4 / d.width)) (i % 4)) := by
  cases ro with
  | false => exact Or.inl (applyPixelate_readFail d buf i)
  | true =>
    by_cases hreg : safeStartX d ≤ i / 4 % d.width ∧ i / 4 % d.width < safeStartX d + safeWidth d ∧
        safeStartY d ≤ i / 4 / d.width ∧ i / 4 / d.width < safeStartY d + safeHeight d
    · obtain ⟨r1, r2, r3, r4⟩ := hreg
      have hc0 : 0 ≤ i % 4 := (emod_four_bounds i).1
      have hc4 : i % 4 < 4 := (emod_four_bounds i).2
      have hrw := applyPixelate_in_region d buf
        (show safeStartX d ≤ i / 4 % d.width from r1)
        (show i / 4 % d.width < safeEndX d by unfold safeWidth at r2; omega)
        (show safeStartY d ≤ i / 4 / d.width from r3)
        (show i / 4 / d.width < safeEndY d by unfold safeHeight at r4; omega)
        hc0 hc4
      rw [byteIdx_recompose d.width i] at hrw
      by_cases hcond : inCircle d.centerX d.centerY d.radius (i / 4 % d.width) (i / 4 / d.width)
          = true ∧ i % 4 < 3
      · right
        rw [if_pos hcond] at hrw
        exact ⟨hcond.2, hcond.1, hrw⟩
      · left
        rw [if_neg hcond] at hrw
        exact hrw
    · exact Or.inl (applyPixelate_not_region d true buf hreg)

open Pixelate Noise in
/-- Any byte is either untouched by `applyNoise`, or (colour channel of an
in-circle pixel of the fetched region) stored as the clamped perturbation of
its previous value by some draw of the stream. -/
theorem applyNoise_byte (d : Dab) (ro : Bool) (rand : ℕ → ℚ) (buf : Buf) (i : ℤ) :
    applyNoise d ro rand buf i = buf i ∨
      (i % 4 < 3 ∧
        inCircle d.centerX d.centerY d.radius (i / 4 % d.width) (i / 4 / d.width) = true ∧
        ∃ k : ℕ, applyNoise d ro rand buf i =
          storeByte (buf i) ((rand k - 1 / 2) * variance d)) := by
  cases ro with
  | false => exact Or.inl (applyNoise_readFail d rand buf i)
  | true =>
    by_cases hreg : safeX d ≤ i / 4 % d.width ∧ i / 4 % d.width < safeX d + imgW d ∧
        safeY d ≤ i / 4 / d.width ∧ i / 4 / d.width < safeY d + imgH d
    · obtain ⟨r1, r2, r3, r4⟩ := hreg
      have hc0 : 0 ≤ i % 4 := (emod_four_bounds i).1
      have hc4 : i % 4 < 4 := (emod_four_bounds i).2
      have hrw := applyNoise_in_region d rand buf r1 r2 r3 r4 hc0 hc4
      rw [byteIdx_recompose d.width i] at hrw
      by_cases hcond : inCircle d.centerX d.centerY d.radius (i / 4 % d.width) (i / 4 / d.width)
          = true ∧ i % 4 < 3
      · right
        rw [if_pos hcond] at hrw
        exact ⟨hcond.2, hcond.1,
          ⟨drawBase d (i / 4 % d.width - safeX d) (i / 4 / d.width - safeY d) + (i % 4).toNat, hrw⟩⟩
      · left
        rw [if_neg hcond] at hrw
        exact hrw
    · exact Or.inl (applyNoise_not_region d true rand buf hreg)

open Pixelate in
/-- Bytes outside the canvas byte range are never written by `applyPixelate`. -/
theorem applyPixelate_outside_canvas (d : Dab) (ro : Bool) (buf : Buf) (i : ℤ)
    (hi : i < 0 ∨ 4 * d.width * d.height ≤ i) : applyPixelate d ro buf i = buf i := by
  rcases le_or_lt d.width 0 with hw | hw
  · exact applyPixelate_degenerate d ro buf i (Or.inl (safeWidth_nonpos_of_width d hw))
  rcases le_or_lt d.height 0 with hh | hh
  · exact applyPixelate_degenerate d ro buf i (Or.inr (safeHeight_nonpos_of_height d hh))
  refine applyPixelate_not_region d ro buf ?_
  have hdec := decode_outside hw hh hi
  have h1 : 0 ≤ safeStartY d := safeStartY_nonneg d
  have h2 : safeStartY d + safeHeight d ≤ d.height := by
    have h3 := safeEndY_le_height d
    unfold safeHeight
    omega
  omega

open Noise in
/-- Bytes outside the canvas byte range are never written by `applyNoise`. -/
theorem applyNoise_outside_canvas (d : Dab) (ro : Bool) (rand : ℕ → ℚ) (buf : Buf) (i : ℤ)
    (hi : i < 0 ∨ 4 * d.width * d.height ≤ i) : applyNoise d ro rand buf i = buf i := by
  rcases le_or_lt d.width 0 with hw | hw
  · exact applyNoise_guard d ro rand buf i (Or.inl (safeW_nonpos_of_width d hw))
  rcases le_or_lt d.height 0 with hh | hh
  · exact applyNoise_guard d ro rand buf i (Or.inr (safeH_nonpos_of_height d hh))
  refine applyNoise_not_region d ro rand buf ?_
  have hdec := decode_outside hw hh hi
  have h1 : 0 ≤ safeY d := safeY_nonneg d
  have h2 : safeY d + imgH d ≤ d.height := by
    have h3 := imgH_le d
    omega
  omega

open Pixelate in
/-- Every local byte index computed by either pass of the pixelate loops is in
range for the fetched sub-region's byte array. -/
theorem pixelateAccesses_bounds (d : Dab) :
    ∀ j ∈ pixelateAccesses d, 0 ≤ j ∧ j < 4 * safeWidth d * safeHeight d := by
  intro j hj
  unfold pixelateAccesses at hj
  obtain ⟨g, hg, hj2⟩ := List.mem_flatMap.mp hj
  obtain ⟨q, hq, hj3⟩ := List.mem_flatMap.mp hj2
  obtain ⟨c1, c2, c3, c4⟩ := blockPixels_coords hq
  obtain ⟨l1, l2, l3, l4⟩ := local_coords ⟨c1, c2, c3, c4⟩
  have hcases : j = byteIdx (safeWidth d) (q.1 - safeStartX d) (q.2 - safeStartY d) 0 ∨
      j = byteIdx (safeWidth d) (q.1 - safeStartX d) (q.2 - safeStartY d) 0 + 1 ∨
      j = byteIdx (safeWidth d) (q.1 - safeStartX d) (q.2 - safeStartY d) 0 + 2 := by
    rcases List.mem_append.mp hj3 with h | h
    · simp only [List.mem_cons, List.not_mem_nil, or_false] at h
      tauto
    · split_ifs at h
      · simp only [List.mem_cons, List.not_mem_nil, or_false] at h
        tauto
      · cases h
  rcases hcases with rfl | rfl | rfl
  · exact byteIdx_bounds l1 l2 l3 l4 (by omega) (by omega)
  · rw [byteIdx_add 1]
    exact byteIdx_bounds l1 l2 l3 l4 (by omega) (by omega)
  · rw [byteIdx_add 2]
    exact byteIdx_bounds l1 l2 l3 l4 (by omega) (by omega)

open Noise in
/-- Every local byte index computed by the noise loop is in range for the
fetched sub-region's byte array. -/
theorem noiseAccesses_bounds (d : Dab) :
    ∀ j ∈ noiseAccesses d, 0 ≤ j ∧ j < 4 * imgW d * imgH d := by
  intro j hj
  unfold noiseAccesses at hj
  obtain ⟨q, hq, hj2⟩ := List.mem_flatMap.mp hj
  obtain ⟨b1, b2, b3, b4⟩ := mem_noisePixels.mp hq
  have hcases : j = byteIdx (imgW d) q.1 q.2 0 ∨ j = byteIdx (imgW d) q.1 q.2 0 + 1 ∨
      j = byteIdx (imgW d) q.1 q.2 0 + 2 := by
    split_ifs at hj2
    · simp only [List.mem_cons, List.not_mem_nil, or_false] at hj2
      tauto
    · cases hj2
  rcases hcases with rfl | rfl | rfl
  · exact byteIdx_bounds b1 b2 b3 b4 (by omega) (by omega)
  · rw [byteIdx_add 1]
    exact byteIdx_bounds b1 b2 b3 b4 (by omega) (by omega)
  · rw [byteIdx_add 2]
    exact byteIdx_bounds b1 b2 b3 b4 (by omega) (by omega)

/-- Pixels with column index at least 3 or row index at least 3 are outside
the circle of `dabFar` (center `(-5, -5)`, radius `8`). -/
theorem dabFar_outside {x y : ℤ} (hx : 0 ≤ x) (hy : 0 ≤ y) (h : 3 ≤ x ∨ 3 ≤ y) :
    inCircle dabFar.centerX dabFar.centerY dabFar.radius x y = false := by
  have hnot : ¬(((x:ℚ) - dabFar.centerX) ^ 2 + ((y:ℚ) - dabFar.centerY) ^ 2 ≤ dabFar.radius ^ 2) := by
    show ¬(((x:ℚ) - (-5)) ^ 2 + ((y:ℚ) - (-5)) ^ 2 ≤ (8:ℚ) ^ 2)
    push_neg
    have hx' : (0:ℚ) ≤ (x:ℚ) := by exact_mod_cast hx
    have hy' : (0:ℚ) ≤ (y:ℚ) := by exact_mod_cast hy
    rcases h with h | h
    · have h3 : (3:ℚ) ≤ (x:ℚ) := by exact_mod_cast h
      nlinarith
    · have h3 : (3:ℚ) ≤ (y:ℚ) := by exact_mod_cast h
      nlinarith
  unfold inCircle
  rw [decide_eq_false hnot, Bool.and_false]

/-! The claims. -/

set_option maxRecDepth 1000000 in
set_option maxHeartbeats 2000000 in
/-- Claim C1: for every grid cell of side `blockSize` anchored at the global
origin that meets the clipped visible region, `applyPixelate` computes the
integer-floor mean of R, G, B over the cell's visible intersection (alpha
excluded) and overwrites R, G, B with it exactly at the pixels of that
intersection passing the circle test, leaving the other pixels of the cell
untouched; in particular, on the 4×4 buffer of four flat 2×2 quadrants with
`blockSize` 4 and a circle covering the whole buffer, every pixel becomes the
floor average of the four quadrant colours with alpha unchanged. -/
theorem claimC1 :
    (∀ (d : Dab) (buf : Buf) (x y c : ℤ),
      Pixelate.safeStartX d ≤ x → x < Pixelate.safeEndX d →
      Pixelate.safeStartY d ≤ y → y < Pixelate.safeEndY d → 0 ≤ c → c < 4 →
      applyPixelate d true buf (byteIdx d.width x y c) =
        if inCircle d.centerX d.centerY d.radius x y ∧ c < 3 then
          Pixelate.cellVisibleAvg d buf (Pixelate.cellX d x) (Pixelate.cellY d y) c
        else buf (byteIdx d.width x y c)) ∧
    (∀ i ∈ List.range 64, applyPixelate dabQuad true bufQuad (i : ℤ) =
      if (i : ℤ) % 4 = 3 then 255 else quadAvg ((i : ℤ) % 4)) := by
  constructor
  · intro d buf x y c hx1 hx2 hy1 hy2 hc hc4
    exact Pixelate.applyPixelate_in_region d buf hx1 hx2 hy1 hy2 hc hc4
  · decide

set_option maxRecDepth 1000000 in
/-- Witness for C1: the general statement applied at the 4×4 scenario, byte
`(x, y, channel) = (1, 2, G)`. -/
theorem claimC1_witness :
    applyPixelate dabQuad true bufQuad (byteIdx dabQuad.width 1 2 1) =
      if inCircle dabQuad.centerX dabQuad.centerY dabQuad.radius 1 2 ∧ (1:ℤ) < 3 then
        Pixelate.cellVisibleAvg dabQuad bufQuad (Pixelate.cellX dabQuad 1)
          (Pixelate.cellY dabQuad 2) 1
      else bufQuad (byteIdx dabQuad.width 1 2 1) :=
  claimC1.1 dabQuad bufQuad 1 2 1 (by decide) (by decide) (by decide) (by decide) (by decide)
    (by decide)

/-- Claim C2: for a fixed `blockSize`, the block extents the grid loops assign
to a pixel are anchored at the global origin: any pixel lying in the clipped
regions of two dabs with the same `blockSize` is covered by exactly one block
of each dab's iteration, those blocks coincide, and their anchor is a multiple
of `blockSize` — independent of brush position and region origin. -/
theorem claimC2 (d1 d2 : Dab) (hB : Pixelate.blockSize d1 = Pixelate.blockSize d2) (x y : ℤ)
    (h1x : Pixelate.safeStartX d1 ≤ x) (h1x2 : x < Pixelate.safeEndX d1)
    (h1y : Pixelate.safeStartY d1 ≤ y) (h1y2 : y < Pixelate.safeEndY d1)
    (h2x : Pixelate.safeStartX d2 ≤ x) (h2x2 : x < Pixelate.safeEndX d2)
    (h2y : Pixelate.safeStartY d2 ≤ y) (h2y2 : y < Pixelate.safeEndY d2) :
    ∃ g : ℤ × ℤ, g ∈ Pixelate.blockList d1 ∧ g ∈ Pixelate.blockList d2 ∧
      g.1 ≤ x ∧ x < g.1 + Pixelate.blockSize d1 ∧ g.2 ≤ y ∧ y < g.2 + Pixelate.blockSize d1 ∧
      Pixelate.blockSize d1 ∣ g.1 ∧ Pixelate.blockSize d1 ∣ g.2 ∧
      (∀ g' ∈ Pixelate.blockList d1, g'.1 ≤ x → x < g'.1 + Pixelate.blockSize d1 →
        g'.2 ≤ y → y < g'.2 + Pixelate.blockSize d1 → g' = g) ∧
      (∀ g' ∈ Pixelate.blockList d2, g'.1 ≤ x → x < g'.1 + Pixelate.blockSize d1 →
        g'.2 ≤ y → y < g'.2 + Pixelate.blockSize d1 → g' = g) := by
  have hcx : Pixelate.cellX d1 x = Pixelate.cellX d2 x := by
    unfold Pixelate.cellX
    rw [hB]
  have hcy : Pixelate.cellY d1 y = Pixelate.cellY d2 y := by
    unfold Pixelate.cellY
    rw [hB]
  refine ⟨(Pixelate.cellX d1 x, Pixelate.cellY d1 y),
    Pixelate.cell_mem_blockList h1x h1x2 h1y h1y2, ?_,
    Pixelate.cellX_le d1 x, Pixelate.lt_cellX_add d1 x,
    Pixelate.cellY_le d1 y, Pixelate.lt_cellY_add d1 y,
    Pixelate.dvd_cellX d1 x, Pixelate.dvd_cellY d1 y, ?_, ?_⟩
  · rw [hcx, hcy]
    exact Pixelate.cell_mem_blockList h2x h2x2 h2y h2y2
  · intro g' hg' hgx hgx2 hgy hgy2
    obtain ⟨hd1, hd2⟩ := Pixelate.blockList_dvd hg'
    refine Prod.ext ?_ ?_
    · exact (Pixelate.cellX_eq_of_aligned hd1 hgx hgx2).symm
    · exact (Pixelate.cellY_eq_of_aligned hd2 hgy hgy2).symm
  · intro g' hg' hgx hgx2 hgy hgy2
    obtain ⟨hd1, hd2⟩ := Pixelate.blockList_dvd hg'
    rw [hB] at hgx2 hgy2
    refine Prod.ext ?_ ?_
    · rw [hcx]
      exact (Pixelate.cellX_eq_of_aligned hd1 hgx hgx2).symm
    · rw [hcy]
      exact (Pixelate.cellY_eq_of_aligned hd2 hgy hgy2).symm

/-- Witness for C2: two overlapping dabs with `blockSize` 4 and different
centers, at the shared pixel `(4, 4)`. -/
theorem claimC2_witness :
    ∃ g : ℤ × ℤ, g ∈ Pixelate.blockList dabA ∧ g ∈ Pixelate.blockList dabB ∧
      g.1 ≤ 4 ∧ (4:ℤ) < g.1 + Pixelate.blockSize dabA ∧ g.2 ≤ 4 ∧
      (4:ℤ) < g.2 + Pixelate.blockSize dabA ∧
      Pixelate.blockSize dabA ∣ g.1 ∧ Pixelate.blockSize dabA ∣ g.2 ∧
      (∀ g' ∈ Pixelate.blockList dabA, g'.1 ≤ 4 → (4:ℤ) < g'.1 + Pixelate.blockSize dabA →
        g'.2 ≤ 4 → (4:ℤ) < g'.2 + Pixelate.blockSize dabA → g' = g) ∧
      (∀ g' ∈ Pixelate.blockList dabB, g'.1 ≤ 4 → (4:ℤ) < g'.1 + Pixelate.blockSize dabA →
        g'.2 ≤ 4 → (4:ℤ) < g'.2 + Pixelate.blockSize dabA → g' = g) :=
  claimC2 dabA dabB (by decide) 4 4 (by decide) (by decide) (by decide) (by decide) (by decide)
    (by decide) (by decide) (by decide)

set_option maxRecDepth 1000000 in
set_option maxHeartbeats 1000000 in
/-- Counterexample to claim C3 as stated: on an 8×8 canvas with brush center
`(2, 2)` and radius `5`, pixel `(7, 2)` lies outside the claimed region
`clip(boundingBox(center, radius))` — its x bound is `min 8 ⌈2+5⌉ = 7` — yet
`applyNoise` modifies its red byte: the fetched region is
`[max 0 ⌊2-5⌋, …) = [0, …)` with the full `2·radius` width kept, not the
clipped bounding box. -/
theorem claimC3_counterexample :
    ¬ SpecRegion.memVisible dabEdge 7 2 ∧
      applyNoise dabEdge true randZero bufFlat (byteIdx dabEdge.width 7 2 0) ≠
        bufFlat (byteIdx dabEdge.width 7 2 0) :=
  ⟨by decide, by decide⟩

/-- Claim C3 (amended): `applyNoise` processes exactly the region with
per-axis origin `max(0, floor(center - radius))` and extent
`floor(min(dim - origin, 2 * radius))` (not the clip of the bounding box):
inside it, every in-circle pixel has each of R, G, B perturbed by an
independent draw `(u - 1/2) * variance`, `variance = intensity * 1.5`, clamped
and stored to `[0, 255]`; every other byte of the canvas — outside the circle
or outside that region — is byte-for-byte unchanged, and a region of zero
extent is a no-op. -/
theorem claimC3 :
    (∀ (d : Dab) (rand : ℕ → ℚ) (buf : Buf) (x y c : ℤ),
      Noise.safeX d ≤ x → x < Noise.safeX d + Noise.imgW d →
      Noise.safeY d ≤ y → y < Noise.safeY d + Noise.imgH d → 0 ≤ c → c < 4 →
      applyNoise d true rand buf (byteIdx d.width x y c) =
        if inCircle d.centerX d.centerY d.radius x y ∧ c < 3 then
          Noise.storeByte (buf (byteIdx d.width x y c))
            ((rand (Noise.drawBase d (x - Noise.safeX d) (y - Noise.safeY d) + c.toNat) - 1 / 2) *
              Noise.variance d)
        else buf (byteIdx d.width x y c)) ∧
    (∀ (d : Dab) (ro : Bool) (rand : ℕ → ℚ) (buf : Buf) (i : ℤ),
      ¬(Noise.safeX d ≤ i / 4 % d.width ∧ i / 4 % d.width < Noise.safeX d + Noise.imgW d ∧
        Noise.safeY d ≤ i / 4 / d.width ∧ i / 4 / d.width < Noise.safeY d + Noise.imgH d) →
      applyNoise d ro rand buf i = buf i) ∧
    (∀ (d : Dab) (ro : Bool) (rand : ℕ → ℚ) (buf : Buf) (i : ℤ),
      Noise.imgW d ≤ 0 ∨ Noise.imgH d ≤ 0 → applyNoise d ro rand buf i = buf i) := by
  refine ⟨?_, ?_, ?_⟩
  · intro d rand buf x y c hx1 hx2 hy1 hy2 hc hc4
    exact Noise.applyNoise_in_region d rand buf hx1 hx2 hy1 hy2 hc hc4
  · intro d ro rand buf i h
    exact Noise.applyNoise_not_region d ro rand buf h
  · intro d ro rand buf i h
    exact Noise.applyNoise_degenerate d ro rand buf i h

set_option maxRecDepth 1000000 in
/-- Witness for the amended C3: the characterization applied at the canvas
pixel `(7, 2)` of the 8×8 scenario (a pixel the original claim excluded). -/
theorem claimC3_witness :
    applyNoise dabEdge true randZero bufFlat (byteIdx dabEdge.width 7 2 0) =
      if inCircle dabEdge.centerX dabEdge.centerY dabEdge.radius 7 2 ∧ (0:ℤ) < 3 then
        Noise.storeByte (bufFlat (byteIdx dabEdge.width 7 2 0))
          ((randZero (Noise.drawBase dabEdge (7 - Noise.safeX dabEdge)
              (2 - Noise.safeY dabEdge) + (0:ℤ).toNat) - 1 / 2) * Noise.variance dabEdge)
      else bufFlat (byteIdx dabEdge.width 7 2 0) :=
  claimC3.1 dabEdge randZero bufFlat 7 2 0 (by decide) (by decide) (by decide) (by decide)
    (by decide) (by decide)

/-- Claim C4: neither effect modifies any byte of a pixel whose distance from
the brush center strictly exceeds the radius (the circle test is false). -/
theorem claimC4 (d : Dab) (ro : Bool) (rand : ℕ → ℚ) (buf : Buf) (i : ℤ)
    (h : inCircle d.centerX d.centerY d.radius (i / 4 % d.width) (i / 4 / d.width) = false) :
    applyPixelate d ro buf i = buf i ∧ applyNoise d ro rand buf i = buf i := by
  constructor
  · rcases applyPixelate_byte d ro buf i with h1 | ⟨-, h2, -⟩
    · exact h1
    · rw [h] at h2
      cases h2
  · rcases applyNoise_byte d ro rand buf i with h1 | ⟨-, h2, -⟩
    · exact h1
    · rw [h] at h2
      cases h2

set_option maxRecDepth 1000000 in
/-- Witness for C4: byte 216 is channel R of pixel `(6, 6)` of the 8×8
scenario, at squared distance 32 from the center `(2, 2)`, radius 5. -/
theorem claimC4_witness :
    applyPixelate dabEdge true bufFlat 216 = bufFlat 216 ∧
      applyNoise dabEdge true randZero bufFlat 216 = bufFlat 216 :=
  claimC4 dabEdge true randZero bufFlat 216 (by decide)

/-- Claim C5: for any brush, both effects modify only bytes inside the canvas
byte range; every local byte index either loop computes is in range for the
fetched sub-region's array (so no out-of-range access occurs and the call
completes); and concretely for a 100×100 buffer with brush center `(-5, -5)`
and radius 8, no pixel with column or row index at least 3 is touched. -/
theorem claimC5 :
    (∀ (d : Dab) (ro : Bool) (buf : Buf) (i : ℤ), i < 0 ∨ 4 * d.width * d.height ≤ i →
      applyPixelate d ro buf i = buf i) ∧
    (∀ (d : Dab) (ro : Bool) (rand : ℕ → ℚ) (buf : Buf) (i : ℤ),
      i < 0 ∨ 4 * d.width * d.height ≤ i → applyNoise d ro rand buf i = buf i) ∧
    (∀ d : Dab, ∀ j ∈ Pixelate.pixelateAccesses d,
      0 ≤ j ∧ j < 4 * Pixelate.safeWidth d * Pixelate.safeHeight d) ∧
    (∀ d : Dab, ∀ j ∈ Noise.noiseAccesses d, 0 ≤ j ∧ j < 4 * Noise.imgW d * Noise.imgH d) ∧
    (∀ (ro : Bool) (rand : ℕ → ℚ) (buf : Buf) (x y c : ℤ), 0 ≤ x → x < 100 → 0 ≤ y → y < 100 →
      0 ≤ c → c < 4 → 3 ≤ x ∨ 3 ≤ y →
      applyPixelate dabFar ro buf (byteIdx dabFar.width x y c) =
          buf (byteIdx dabFar.width x y c) ∧
        applyNoise dabFar ro rand buf (byteIdx dabFar.width x y c) =
          buf (byteIdx dabFar.width x y c)) := by
  refine ⟨?_, ?_, pixelateAccesses_bounds, noiseAccesses_bounds, ?_⟩
  · intro d ro buf i h
    exact applyPixelate_outside_canvas d ro buf i h
  · intro d ro rand buf i h
    exact applyNoise_outside_canvas d ro rand buf i h
  · intro ro rand buf x y c hx0 hx1 hy0 hy1 hc0 hc4 hfar
    have hw : dabFar.width = 100 := rfl
    obtain ⟨e1, e2, e3⟩ := @byteIdx_decode dabFar.width x y c hx0 (by rw [hw]; exact hx1) hc0 hc4
    have hcirc : inCircle dabFar.centerX dabFar.centerY dabFar.radius
        (byteIdx dabFar.width x y c / 4 % dabFar.width)
        (byteIdx dabFar.width x y c / 4 / dabFar.width) = false := by
      rw [e2, e3]
      exact dabFar_outside hx0 hy0 hfar
    constructor
    · rcases applyPixelate_byte dabFar ro buf (byteIdx dabFar.width x y c) with h1 | ⟨-, h2, -⟩
      · exact h1
      · rw [hcirc] at h2
        cases h2
    · rcases applyNoise_byte dabFar ro rand buf (byteIdx dabFar.width x y c) with h1 | ⟨-, h2, -⟩
      · exact h1
      · rw [hcirc] at h2
        cases h2

set_option maxRecDepth 1000000 in
/-- Witness for C5: the concrete part at pixel `(50, 7)` channel R, and the
out-of-range part at byte index `-1`. -/
theorem claimC5_witness :
    (applyPixelate dabFar true bufFlat (byteIdx dabFar.width 50 7 0) =
        bufFlat (byteIdx dabFar.width 50 7 0) ∧
      applyNoise dabFar true randZero bufFlat (byteIdx dabFar.width 50 7 0) =
        bufFlat (byteIdx dabFar.width 50 7 0)) ∧
      applyPixelate dabFar true bufFlat (-1) = bufFlat (-1) :=
  ⟨(claimC5.2.2.2.2) true randZero bufFlat 50 7 0 (by decide) (by decide) (by decide) (by decide)
      (by decide) (by decide) (Or.inl (by decide)),
    claimC5.1 dabFar true bufFlat (-1) (Or.inl (by decide))⟩

/-- Claim C6: whatever the input buffer, brush and random draws (the whole
stream is universally quantified, extremes included), any byte `applyNoise`
writes lies in `[0, 255]`: every output byte is either byte-identical to the
input or at most 255 (ℕ-valued, hence at least 0). -/
theorem claimC6 (d : Dab) (ro : Bool) (rand : ℕ → ℚ) (buf : Buf) (i : ℤ) :
    applyNoise d ro rand buf i = buf i ∨ applyNoise d ro rand buf i ≤ 255 := by
  rcases applyNoise_byte d ro rand buf i with h1 | ⟨-, -, k, h2⟩
  · exact Or.inl h1
  · right
    rw [h2]
    exact Noise.storeByte_le _ _

/-- Claim C7: all three effects leave every alpha byte (channel index 3)
byte-identical, for every buffer and brush; for `applyBlur` this is settled
against the spec model, since the pixel semantics of the canvas engine's
filtered, clipped `drawImage` is not part of this repository's sources. -/
theorem claimC7 (d : Dab) (ro : Bool) (rand : ℕ → ℚ) (blurred surface buf : Buf) (i : ℤ)
    (h : i % 4 = 3) :
    applyPixelate d ro buf i = buf i ∧ applyNoise d ro rand buf i = buf i ∧
      applyBlur d blurred surface i = surface i := by
  refine ⟨?_, ?_, ?_⟩
  · rcases applyPixelate_byte d ro buf i with h1 | ⟨h2, -, -⟩
    · exact h1
    · omega
  · rcases applyNoise_byte d ro rand buf i with h1 | ⟨h2, -, -⟩
    · exact h1
    · omega
  · unfold applyBlur
    rw [if_neg (fun hc => hc.2.2.2.2.2 h)]

set_option maxRecDepth 1000000 in
/-- Witness for C7: byte 3 (the alpha of pixel `(0, 0)`). -/
theorem claimC7_witness :
    applyPixelate dabEdge true bufFlat 3 = bufFlat 3 ∧
      applyNoise dabEdge true randZero bufFlat 3 = bufFlat 3 ∧
      applyBlur dabEdge bufFlat bufFlat 3 = bufFlat 3 :=
  claimC7 dabEdge true randZero bufFlat bufFlat bufFlat 3 (by decide)

/-- Claim C8: if the backing-store read throws (`getImageData` fails, e.g. a
tainted canvas), both effects return silently before any mutation: the buffer
is byte-for-byte unchanged and no error escapes (the embedded functions are
total). -/
theorem claimC8 (d : Dab) (rand : ℕ → ℚ) (buf : Buf) (i : ℤ) :
    applyPixelate d false buf i = buf i ∧ applyNoise d false rand buf i = buf i :=
  ⟨Pixelate.applyPixelate_readFail d buf i, Noise.applyNoise_readFail d rand buf i⟩

/-- Claim C9: whenever the clipped region has zero area, each effect returns
without reading (the result does not depend on the read outcome `ro`) and
without mutating any byte, signalling nothing: a zero-area region is a no-op,
not a failure. -/
theorem claimC9 (d : Dab) (ro : Bool) (rand : ℕ → ℚ) (buf : Buf) (i : ℤ) :
    ((Pixelate.safeWidth d ≤ 0 ∨ Pixelate.safeHeight d ≤ 0) → applyPixelate d ro buf i = buf i) ∧
      ((Noise.imgW d ≤ 0 ∨ Noise.imgH d ≤ 0) → applyNoise d ro rand buf i = buf i) :=
  ⟨fun h => Pixelate.applyPixelate_degenerate d ro buf i h,
    fun h => Noise.applyNoise_degenerate d ro rand buf i h⟩

/-- Witness for C9: radius 0 at an integer center makes both regions
degenerate on a 10×10 canvas. -/
theorem claimC9_witness :
    applyPixelate dabZero true bufFlat 5 = bufFlat 5 ∧
      applyNoise dabZero true randZero bufFlat 5 = bufFlat 5 :=
  ⟨(claimC9 dabZero true randZero bufFlat 5).1 (by decide),
    (claimC9 dabZero true randZero bufFlat 5).2 (by decide)⟩

/-- Claim C10: the in-circle test of both effects is evaluated at the pixel's
integer coordinates: it accepts `(x, y)` exactly when
`√((x - centerX)² + (y - centerY)²) ≤ radius` over the reals with `x`, `y` the
integer indices; consequently any byte either effect changes belongs to a
pixel whose integer coordinates lie in the closed disc. -/
theorem claimC10 :
    (∀ (cx cy r : ℚ) (x y : ℤ),
      inCircle cx cy r x y = true ↔
        Real.sqrt (((x : ℝ) - (cx : ℝ)) ^ 2 + ((y : ℝ) - (cy : ℝ)) ^ 2) ≤ (r : ℝ)) ∧
    (∀ (d : Dab) (ro : Bool) (rand : ℕ → ℚ) (buf : Buf) (i : ℤ),
      applyPixelate d ro buf i ≠ buf i ∨ applyNoise d ro rand buf i ≠ buf i →
      inCircle d.centerX d.centerY d.radius (i / 4 % d.width) (i / 4 / d.width) = true) := by
  constructor
  · intro cx cy r x y
    rw [Real.sqrt_le_iff]
    unfold inCircle
    rw [Bool.and_eq_true, decide_eq_true_iff, decide_eq_true_iff]
    constructor
    · rintro ⟨h1, h2⟩
      refine ⟨by exact_mod_cast h1, ?_⟩
      have h3 : ((((x:ℚ) - cx) ^ 2 + ((y:ℚ) - cy) ^ 2 : ℚ) : ℝ) ≤ ((r ^ 2 : ℚ) : ℝ) := by
        exact_mod_cast h2
      push_cast at h3
      convert h3 using 2 <;> norm_cast
    · rintro ⟨h1, h2⟩
      refine ⟨by exact_mod_cast h1, ?_⟩
      have h3 : ((((x:ℚ) - cx) ^ 2 + ((y:ℚ) - cy) ^ 2 : ℚ) : ℝ) ≤ ((r ^ 2 : ℚ) : ℝ) := by
        push_cast
        convert h2 using 2 <;> norm_cast
      exact_mod_cast h3
  · intro d ro rand buf i h
    rcases h with h | h
    · rcases applyPixelate_byte d ro buf i with h1 | ⟨-, h2, -⟩
      · exact absurd h1 h
      · exact h2
    · rcases applyNoise_byte d ro rand buf i with h1 | ⟨-, h2, -⟩
      · exact absurd h1 h
      · exact h2

set_option maxRecDepth 1000000 in
/-- Witness for C10: byte 92 (channel R of pixel `(7, 2)`) of the 8×8 scenario
is changed by `applyNoise`, so its integer coordinates pass the circle test. -/
theorem claimC10_witness :
    inCircle dabEdge.centerX dabEdge.centerY dabEdge.radius (92 / 4 % dabEdge.width)
      (92 / 4 / dabEdge.width) = true :=
  claimC10.2 dabEdge true randZero bufFlat 92 (Or.inr (by decide))
